import Mathlib

/-!
# flex-dom: registry, component constructor and state container

A shallow embedding of `src/index.js`.  JavaScript objects with identity (DOM elements) live
in a heap indexed by `ElemId`; every operation is a function from the state before the call to
a `Res`, which carries the state at the moment the call returned or threw.
-/

namespace FlexDom

/-! ## Values and errors -/

/-- JavaScript values that flow through properties and state.  Numbers are the integers
(in the range where their decimal form is their string form); functions and objects are
compared by identity; a function also carries its source text, which is what string coercion
yields. -/
inductive Value where
  | undefined
  | null
  | bool (b : Bool)
  | num (n : Int)
  | nan
  | str (s : String)
  | fn (id : Nat) (src : String)
  | obj (ref : Nat)
  deriving DecidableEq, Repr

/-- The test `typeof value === 'function'`. -/
def Value.isCallable : Value → Bool
  | .fn _ _ => true
  | _ => false

/-- The operator `a !== b`: identity of values, with `NaN` different from itself. -/
def Value.strictNe : Value → Value → Bool
  | .nan, _ => true
  | _, .nan => true
  | .fn i _, .fn j _ => i != j
  | .obj r, .obj s => r != s
  | a, b => a != b

/-- String coercion of a value used as an object key, as in `this.nodes[child.key]`. -/
def Value.toPropertyKey : Value → String
  | .undefined => "undefined"
  | .null => "null"
  | .bool true => "true"
  | .bool false => "false"
  | .num n => toString n
  | .nan => "NaN"
  | .str s => s
  | .fn _ src => src
  | .obj _ => "[object Object]"

/-- Exceptions that the modelled code can raise. -/
inductive JsError where
  | error (message : String)
  | typeError
  | hierarchyRequestError
  | notFoundError
  deriving DecidableEq, Repr

/-- Result of a call: either it returned `a` in state `s`, or it threw `e` leaving state `s`. -/
inductive Res (σ α : Type) where
  | ok (s : σ) (a : α)
  | threw (s : σ) (e : JsError)

/-- State in which the call ended, whether it returned or threw. -/
def Res.state {σ α : Type} : Res σ α → σ
  | .ok s _ => s
  | .threw s _ => s

/-- Whether the call returned normally. -/
def Res.isOk {σ α : Type} : Res σ α → Bool
  | .ok _ _ => true
  | .threw _ _ => false

/-! ## The host document -/

abbrev ElemId := Nat

/-- A property bag: own enumerable properties in insertion order. -/
abbrev Props := List (String × Value)

/-- An element of the host document.  `props` holds, for every property name, the value stored
by the last assignment under that name (`key`, `textContent` and the entries of a property bag
share this one namespace, as they do on a JavaScript object); a name never assigned holds
`undefined`.  What the host stores for an assignment is the business of `Host`. -/
structure Element where
  tagName : String
  props : String → Value
  parentNode : Option ElemId
  childNodes : List ElemId

/-- The host document: a heap of elements and the next free identity. -/
structure Dom where
  elems : ElemId → Element
  next : Nat

/-- Heap update at one element. -/
def Dom.update (d : Dom) (x : ElemId) (f : Element → Element) : Dom :=
  { d with elems := fun y => if y = x then f (d.elems y) else d.elems y }

/-- Assignment `element[name] = value`. -/
def Dom.setProp (d : Dom) (x : ElemId) (name : String) (v : Value) : Dom :=
  d.update x fun e => { e with props := fun p => if p = name then v else e.props p }

/-- Read of `element.key`. -/
def Dom.keyOf (d : Dom) (x : ElemId) : Value :=
  (d.elems x).props "key"

/-- Walks up the parent chain from `x` for at most `fuel` steps looking for `a`. -/
def Dom.ancestorWithin (d : Dom) (a : ElemId) : Nat → ElemId → Bool
  | 0, x => x == a
  | fuel + 1, x =>
    x == a ||
      match (d.elems x).parentNode with
      | none => false
      | some p => d.ancestorWithin a fuel p

/-- Whether `a` is `x` or one of its ancestors (the parent chain of an allocated element has
fewer than `next` links). -/
def Dom.isInclusiveAncestor (d : Dom) (a x : ElemId) : Bool :=
  d.ancestorWithin a d.next x

/-- Removes `x` from the children of its parent, if it has one. -/
def Dom.detach (d : Dom) (x : ElemId) : Dom :=
  match (d.elems x).parentNode with
  | none => d
  | some p =>
    (d.update p fun e => { e with childNodes := e.childNodes.filter (· != x) }).update x
      fun e => { e with parentNode := none }

/-- Host method `document.createElement(tagName)`. -/
def Dom.createElement (d : Dom) (tagName : String) : Dom × ElemId :=
  ({ elems := fun y =>
      if y = d.next then
        { tagName := tagName, props := fun _ => .undefined, parentNode := none, childNodes := [] }
      else d.elems y,
     next := d.next + 1 }, d.next)

/-- Host method `parent.appendChild(child)`: rejected when `child` is `parent` or one of its
ancestors; otherwise `child` leaves its old parent and becomes the last child of `parent`. -/
def Dom.appendChild (d : Dom) (parent child : ElemId) : Res Dom Unit :=
  if d.isInclusiveAncestor child parent then .threw d .hierarchyRequestError
  else
    let d1 := d.detach child
    let d2 := d1.update parent fun e => { e with childNodes := e.childNodes ++ [child] }
    .ok (d2.update child fun e => { e with parentNode := some parent }) ()

/-- Replaces the first occurrence of `old` in a child list by `new`. -/
def replaceFirst (old new : ElemId) : List ElemId → List ElemId
  | [] => []
  | x :: xs => if x = old then new :: xs else x :: replaceFirst old new xs

/-- Host method `parent.replaceChild(node, child)`: rejected when `node` is `parent` or one of
its ancestors, or when `child` is not a child of `parent`; otherwise `node` leaves its old
parent and takes the place of `child`, which is left without a parent. -/
def Dom.replaceChild (d : Dom) (parent node child : ElemId) : Res Dom Unit :=
  if d.isInclusiveAncestor node parent then .threw d .hierarchyRequestError
  else if (d.elems child).parentNode ≠ some parent then .threw d .notFoundError
  else if node = child then .ok d ()
  else
    let d1 := d.detach node
    let d2 := d1.update parent fun e =>
      { e with childNodes := replaceFirst child node e.childNodes }
    let d3 := d2.update child fun e => { e with parentNode := none }
    .ok (d3.update node fun e => { e with parentNode := some parent }) ()

/-! ## The registry (class FlexDOM) -/

/-- A registry record (typedef FlexNode). -/
structure FlexNode where
  parent : ElemId
  current : ElemId
  deriving DecidableEq, Repr

/-- Instance fields of the class: the map `nodes` from property key to record, and `root`. -/
structure FlexDOM where
  nodes : String → Option FlexNode
  root : Option ElemId

/-- What a registry method works on: the receiver and the host document. -/
structure RegState where
  reg : FlexDOM
  dom : Dom

/-- Assignment `this.nodes[key] = node`. -/
def FlexDOM.setNode (self : FlexDOM) (key : String) (node : FlexNode) : FlexDOM :=
  { self with nodes := fun k => if k = key then some node else self.nodes k }

/-- Method `get(key)`: the record stored under `key`, `none` standing for `undefined`. -/
def FlexDOM.get (self : FlexDOM) (key : Value) : Option FlexNode :=
  self.nodes key.toPropertyKey

/-- Method `add(parent, child)`; `none` stands for an absent (null or undefined) argument. -/
def FlexDOM.add (s : RegState) (parent child : Option ElemId) : Res RegState Unit :=
  match parent with
  | none => .threw s (.error "Parent doesn't exists")
  | some p =>
    match child with
    | none => .threw s (.error "Child doesn't exists")
    | some c =>
      match s.dom.appendChild p c with
      | .threw d e => .threw { s with dom := d } e
      | .ok d _ =>
        .ok { reg := s.reg.setNode (d.keyOf c).toPropertyKey { parent := p, current := c },
              dom := d } ()

/-- Method `replace(key, newChild)`.  Destructuring `this.get(key)` throws when the record is
missing; `this.nodes[key]` spread in the last statement is the record read at the start. -/
def FlexDOM.replace (s : RegState) (key : Value) (newChild : ElemId) : Res RegState Unit :=
  match s.reg.get key with
  | none => .threw s .typeError
  | some node =>
    let d1 := s.dom.setProp newChild "key" key
    match d1.replaceChild node.parent newChild node.current with
    | .threw d e => .threw { s with dom := d } e
    | .ok d _ =>
      .ok { reg := s.reg.setNode key.toPropertyKey { node with current := newChild },
            dom := d } ()

/-- The alphabet `possible` of the key generator. -/
def possible : String :=
  "ABCDEFGHIJKLMNOPQRSTUVWXYZabcdefghijklmnopqrstuvwxyz0123456789_-#@"

/-- String method `charAt(index)`: the one-character string at `index`, or the empty string
when `index` is out of range. -/
def charAt (s : String) (index : Int) : String :=
  match index with
  | .ofNat i =>
    match s.toList.get? i with
    | some ch => String.singleton ch
    | none => ""
  | .negSucc _ => ""

/-- An outcome of `Math.random()`: the number `num / den`, which lies in [0,1) when
`num < den`. -/
structure Draw where
  num : Nat
  den : Nat
  deriving DecidableEq, Repr

/-- The number a draw stands for. -/
def Draw.toRat (r : Draw) : ℚ :=
  (r.num : ℚ) / (r.den : ℚ)

/-- The expression `Math.floor(Math.random() * length)` for the outcome `r`. -/
def Draw.scaledFloor (r : Draw) (length : Nat) : Int :=
  Int.ofNat (r.num * length / r.den)

/-- Static method `key(hashCharCount)` against the outcomes `random 0, random 1, ...` of
`Math.random()`: the text after `hashCharCount` iterations of the loop. -/
def FlexDOM.key (random : Nat → Draw) : Nat → String
  | 0 => ""
  | i + 1 => FlexDOM.key random i ++ charAt possible ((random i).scaledFloor possible.length)

/-- The call `FlexDOM.key()` or `FlexDOM.key(n)`: the parameter defaults to 10. -/
def FlexDOM.keyCall (random : Nat → Draw) (hashCharCount : Option Nat) : String :=
  FlexDOM.key random (hashCharCount.getD 10)

/-! ## Property bags -/

/-- Reads a list of decimal digits as a number, continuing from `acc`; `none` when a
character is not a digit. -/
def parseDigits : List Char → Nat → Option Nat
  | [], acc => some acc
  | ch :: rest, acc =>
    if 48 ≤ ch.toNat ∧ ch.toNat ≤ 57 then parseDigits rest (acc * 10 + (ch.toNat - 48))
    else none

/-- The array index a property name denotes, if any: the name must be the canonical decimal
form of a number below `2^32 - 1`.  Such names come first, in ascending order, when an object
is enumerated. -/
def arrayIndex? (name : String) : Option Nat :=
  match name.toList with
  | [] => none
  | ch :: rest =>
    match parseDigits (ch :: rest) 0 with
    | some n => if n < 4294967295 ∧ toString n = name then some n else none
    | none => none

/-- Assignment `o[name] = v` on a bag kept in insertion order: an existing entry keeps its
place, a new one goes last. -/
def assign : Props → String → Value → Props
  | [], name, v => [(name, v)]
  | (k, x) :: rest, name, v =>
    if k = name then (k, v) :: rest else (k, x) :: assign rest name v

/-- Inserts an index-named entry into a list sorted by index. -/
def insertByIndex (e : String × Value) : Props → Props
  | [] => [e]
  | x :: rest =>
    if (arrayIndex? e.1).getD 0 ≤ (arrayIndex? x.1).getD 0 then e :: x :: rest
    else x :: insertByIndex e rest

/-- Enumeration order of own properties: index names ascending, then the other names in
insertion order. -/
def ownOrder (o : Props) : Props :=
  (o.filter fun e => (arrayIndex? e.1).isSome).foldr insertByIndex [] ++
    o.filter fun e => !(arrayIndex? e.1).isSome

/-- The object literal `{ ...a, ...b }`, as the list `Object.entries` gives for it. -/
def spread (a b : Props) : Props :=
  ownOrder ((a ++ b).foldl (fun o e => assign o e.1 e.2) [])

/-! ## Page state and the component constructor -/

/-- What an assignment `element[name] = value` does on a host element: the property then
holds `stored` (the value itself for a plain property, a converted value for a property the
host converts), or the assignment throws `rejected` (a read-only property, the module being
strict code). -/
inductive Assigned where
  | stored (v : Value)
  | rejected (e : JsError)
  deriving DecidableEq, Repr

/-- What the environment supplies and the library does not implement: the string method
`toLowerCase()`, the effect of assigning a property on an element with a given tag name, and
which properties read back what the last assignment stored whatever else happens to the
element (`stable`; a property the host derives from other state, such as `textContent`, is
not).  The property `key` is not a host property: it holds whatever is assigned. -/
structure Host where
  toLowerCase : String → String
  assign : String → String → Value → Assigned
  stable : String → String → Bool
  key_plain : ∀ tagName v, assign tagName "key" v = .stored v

/-- The host keeps `v` under `name` on elements with tag `tagName`: assigning `v` stores `v`
itself, and the property is stable. -/
def Host.keeps (h : Host) (tagName name : String) (v : Value) : Prop :=
  h.assign tagName name v = .stored v ∧ h.stable tagName name = true

/-- Everything the library can read or write: the document, the global `window.flexDOM`
(`none` when it is `null`), the outcomes of the coming calls of `Math.random()`, and the
environment. -/
structure World where
  dom : Dom
  flexDOM : Option FlexDOM
  random : Nat → Draw
  host : Host

/-- The call `window.flexDOM.add(parent, child)`. -/
def World.add (w : World) (parent child : Option ElemId) : Res World Unit :=
  match w.flexDOM with
  | none => .threw w .typeError
  | some reg =>
    match FlexDOM.add { reg := reg, dom := w.dom } parent child with
    | .ok s _ => .ok { w with flexDOM := some s.reg, dom := s.dom } ()
    | .threw s e => .threw { w with flexDOM := some s.reg, dom := s.dom } e

/-- The call `window.flexDOM.replace(key, newChild)` once the receiver has been read. -/
def World.replace (w : World) (key : Value) (newChild : ElemId) : Res World Unit :=
  match w.flexDOM with
  | none => .threw w .typeError
  | some reg =>
    match FlexDOM.replace { reg := reg, dom := w.dom } key newChild with
    | .ok s _ => .ok { w with flexDOM := some s.reg, dom := s.dom } ()
    | .threw s e => .threw { w with flexDOM := some s.reg, dom := s.dom } e

/-- The call `FlexDOM.key()` in a world: ten outcomes of the random source are consumed. -/
def World.freshKey (w : World) : World × String :=
  ({ w with random := fun i => w.random (i + 10) }, FlexDOM.keyCall w.random none)

/-- The argument `children` of `c`. -/
inductive Children where
  | text (s : String)
  | array (items : List (Option ElemId))
  | other

/-- The string that `c` assigns to `textContent`: present only when `children` is a string. -/
def Children.text? : Children → Option String
  | .text s => some s
  | _ => none

/-- The loop `children.forEach(child => window.flexDOM.add($element, child))`. -/
def addAll (element : ElemId) : World → List (Option ElemId) → Res World Unit
  | w, [] => .ok w ()
  | w, child :: rest =>
    match w.add (some element) child with
    | .ok w1 _ => addAll element w1 rest
    | .threw w1 e => .threw w1 e

/-- The constant `propKey` of `c`:
`typeof value === 'function' ? key.toLowerCase() : key`. -/
def propKey (host : Host) (key : String) (value : Value) : String :=
  if value.isCallable then host.toLowerCase key else key

/-- The loop over `Object.entries(props)` in `c`, on an element with tag `tagName`: each
assignment stores what the host stores for it, and an assignment the host rejects ends the
loop with its exception. -/
def applyProps (host : Host) (tagName : String) (element : ElemId) : Dom → Props → Res Dom Unit
  | d, [] => .ok d ()
  | d, (key, value) :: rest =>
    match host.assign tagName (propKey host key value) value with
    | .stored v =>
      applyProps host tagName element (d.setProp element (propKey host key value) v) rest
    | .rejected e => .threw d e

/-- Spec (component constructor): the name under which a property entry is installed is the
lower-cased key name if the value is callable, and the original key name otherwise. -/
def installedName (lower : String → String) (key : String) : Value → String
  | .fn _ _ => lower key
  | _ => key

/-- Value of the last entry of a bag whose installed name, by the spec's rule, is `name`, if
there is one. -/
def lastInstalled (lower : String → String) : Props → String → Option Value
  | [], _ => none
  | (key, value) :: rest, name =>
    match lastInstalled lower rest name with
    | some v => some v
    | none => if installedName lower key value = name then some value else none

/-- Function `c(tagName, children, props)`; the defaults are `Children.array []` and `[]`. -/
def c (w : World) (tagName : String) (children : Children) (props : Props) : Res World ElemId :=
  let (d1, element) := w.dom.createElement tagName
  let (w1, key) := World.freshKey { w with dom := d1 }
  let d2 := w1.dom.setProp element "key" (.str key)
  match applyProps w.host tagName element d2 props with
  | .threw d3 e => .threw { w1 with dom := d3 } e
  | .ok d3 _ =>
    let w2 := { w1 with dom := d3 }
    match children with
    | .text s =>
      match w.host.assign tagName "textContent" (.str s) with
      | .stored v => .ok { w2 with dom := d3.setProp element "textContent" v } element
      | .rejected e => .threw w2 e
    | .array items =>
      match addAll element w2 items with
      | .ok w3 _ => .ok w3 element
      | .threw w3 e => .threw w3 e
    | .other => .ok w2 element

/-! ## The state container (useState) -/

/-- A component function: called with a properties object, it returns an element and may
create elements and register children on the way. -/
abbrev Component := Props → World → Res World ElemId

/-- One entry of `subs`: `[componentFn, mapStateToProps, fnProps, $element.key]`. -/
structure Sub where
  componentFn : Component
  mapStateToProps : Value → Value
  fnProps : Props
  dataKey : Value

/-- The closure variables `state` and `subs` of one `useState` call. -/
structure Container where
  state : Value
  subs : List Sub

/-- A call observed from outside: a component function invoked by the container with a
properties object (together with the element it returned, `none` if it threw), or `replace`
invoked on the registry. -/
inductive Event where
  | render (componentFn : Component) (props : Props) (returned : Option ElemId)
  | replace (key : Value) (newChild : ElemId)

/-- State of a run: the container, the world, the calls the container has made so far
(oldest first), and the own enumerable properties of every value, which a spread reads. -/
structure Run where
  vars : Container
  world : World
  trace : List Event
  ownEntries : Value → Props

/-- The call `useState(defaultState)`. -/
def useState (defaultState : Value) : Container :=
  { state := defaultState, subs := [] }

/-- The expression `{ ...props, ...mapToProps(state) }`. -/
def renderProps (ownEntries : Value → Props) (mapToProps : Value → Value) (props : Props)
    (state : Value) : Props :=
  spread props (ownEntries (mapToProps state))

/-- Function `connectToState(componentFn, mapStateToProps, fnProps)`; an omitted mapper is the
identity and omitted fixed properties are the empty object. -/
def connectToState (r : Run) (componentFn : Component) (mapStateToProps : Option (Value → Value))
    (fnProps : Option Props) : Res Run ElemId :=
  let mapper := mapStateToProps.getD fun state => state
  let fixed := fnProps.getD []
  let props := renderProps r.ownEntries mapper fixed r.vars.state
  match componentFn props r.world with
  | .threw w e =>
    .threw { r with world := w, trace := r.trace ++ [.render componentFn props none] } e
  | .ok w element =>
    .ok { r with
          vars := { r.vars with subs := r.vars.subs ++
            [{ componentFn := componentFn, mapStateToProps := mapper, fnProps := fixed,
               dataKey := w.dom.keyOf element }] },
          world := w, trace := r.trace ++ [.render componentFn props (some element)] } element

/-- The first argument of `setState`: a callable is applied to the current state, anything
else is the next state itself. -/
inductive StateArg where
  | value (v : Value) (notCallable : v.isCallable = false)
  | func (f : Value → Value)

/-- The constant `newState` computed at the start of `setState`. -/
def StateArg.next (newStateOrFunc : StateArg) (state : Value) : Value :=
  match newStateOrFunc with
  | .func f => f state
  | .value v _ => v

/-- The loop `subs.forEach(...)` of `setState`.  In each round the receiver
`window.flexDOM` is read first, then the component function runs, then `replace`. -/
def rerender (ownEntries : Value → Props) (state : Value) :
    World → List Event → List Sub → Res (World × List Event) Unit
  | w, trace, [] => .ok (w, trace) ()
  | w, trace, sub :: rest =>
    match w.flexDOM with
    | none => .threw (w, trace) .typeError
    | some _ =>
      let props := renderProps ownEntries sub.mapStateToProps sub.fnProps state
      match sub.componentFn props w with
      | .threw w1 e => .threw (w1, trace ++ [.render sub.componentFn props none]) e
      | .ok w1 element =>
        let trace2 := trace ++
          [.render sub.componentFn props (some element), .replace sub.dataKey element]
        match w1.replace sub.dataKey element with
        | .threw w2 e => .threw (w2, trace2) e
        | .ok w2 _ => rerender ownEntries state w2 trace2 rest

/-- Function `setState(newStateOrFunc, skipRender)`; `skipRender` defaults to `false`. -/
def setState (r : Run) (newStateOrFunc : StateArg) (skipRender : Option Bool) : Res Run Unit :=
  let newState := newStateOrFunc.next r.vars.state
  if newState.strictNe r.vars.state then
    let vars := { r.vars with state := newState }
    if !(skipRender.getD false) then
      match rerender r.ownEntries newState r.world r.trace vars.subs with
      | .ok (w, trace) _ => .ok { r with vars := vars, world := w, trace := trace } ()
      | .threw (w, trace) e => .threw { r with vars := vars, world := w, trace := trace } e
    else .ok { r with vars := vars } ()
  else .ok r ()

/-- A sequence of calls `add(parent_i, child_i)` with every argument present, run in order;
the first call that throws ends the run. -/
def addSeq : RegState → List (ElemId × ElemId) → Res RegState Unit
  | s, [] => .ok s ()
  | s, (parent, child) :: rest =>
    match FlexDOM.add s (some parent) (some child) with
    | .ok s1 _ => addSeq s1 rest
    | .threw s1 e => .threw s1 e

/-- The registry key under which element `x` is filed: its `key` property coerced to a
property name. -/
def Dom.keyName (d : Dom) (x : ElemId) : String :=
  (d.keyOf x).toPropertyKey

/-- The calls a complete pass of the loop of `setState` makes when the component functions
return the elements `els`: for each subscription, its component function on the merged
properties, then `replace` of the recorded key by the element returned. -/
def rerenderCalls (ownEntries : Value → Props) (state : Value) :
    List Sub → List ElemId → List Event
  | sub :: subs, el :: els =>
    .render sub.componentFn (renderProps ownEntries sub.mapStateToProps sub.fnProps state)
        (some el) ::
      .replace sub.dataKey el :: rerenderCalls ownEntries state subs els
  | _, _ => []

/-- Whether an event is a call of `replace`. -/
def Event.isReplace : Event → Bool
  | .replace _ _ => true
  | .render _ _ _ => false

/-- Whether a properties object is `fixed` overridden by `mapped`: every name reads the
mapped value when `mapped` has it, and the fixed value (or nothing) otherwise. -/
def OverriddenBy (props fixed mapped : Props) : Prop :=
  ∀ name, List.lookup name props =
    match List.lookup name mapped with
    | some v => some v
    | none => List.lookup name fixed

/-! ## Sequences of calls on one container -/

/-- Bookkeeping for one subscription: the element most recently rendered for it, and whether
that subscription has been mounted with `add`. -/
structure Mount where
  latest : ElemId
  mounted : Bool
  deriving DecidableEq, Repr

/-- A run together with the bookkeeping of its subscriptions, in subscription order. -/
structure Session where
  run : Run
  ghost : List Mount

/-- A call made on the container or on behalf of it: `connectToState`, the mounting of the
element of subscription `index` under `parent` with `add`, or `setState`. -/
inductive Step where
  | connect (componentFn : Component) (mapStateToProps : Option (Value → Value))
      (fnProps : Option Props)
  | mount (index : Nat) (parent : ElemId)
  | set (newStateOrFunc : StateArg) (skipRender : Option Bool)

/-- The elements handed to `replace` in a list of calls, in order. -/
def replacedBy : List Event → List ElemId
  | [] => []
  | .replace _ el :: rest => el :: replacedBy rest
  | .render _ _ _ :: rest => replacedBy rest

/-- One step of a session; `none` when the call throws, when `mount` names no subscription,
or when `setState` is called while a subscription is still unmounted. -/
def Session.step (s : Session) : Step → Option Session
  | .connect componentFn mapStateToProps fnProps =>
    match connectToState s.run componentFn mapStateToProps fnProps with
    | .ok r1 el => some { run := r1, ghost := s.ghost ++ [{ latest := el, mounted := false }] }
    | .threw _ _ => none
  | .mount index parent =>
    match s.ghost.get? index with
    | none => none
    | some g =>
      match s.run.world.add (some parent) (some g.latest) with
      | .ok w1 _ =>
        some { run := { s.run with world := w1 },
               ghost := s.ghost.set index { g with mounted := true } }
      | .threw _ _ => none
  | .set newStateOrFunc skipRender =>
    if s.ghost.all (fun g => g.mounted) then
      match setState s.run newStateOrFunc skipRender with
      | .ok r1 _ =>
        let els := replacedBy (r1.trace.drop s.run.trace.length)
        some { run := r1,
               ghost := if els.length = s.ghost.length
                 then List.zipWith (fun g el => { g with latest := el }) s.ghost els
                 else s.ghost }
      | .threw _ _ => none
    else none

/-- A sequence of steps, each of which must go through. -/
def Session.steps : Session → List Step → Option Session
  | s, [] => some s
  | s, st :: rest =>
    match s.step st with
    | some s1 => s1.steps rest
    | none => none

/-- The subscription-key condition for one subscription in world `w`: once mounted, its
recorded key has a registry record whose current element is the one most recently rendered
for it, and that element carries the recorded key. -/
def liveEntry (w : World) (sub : Sub) (g : Mount) : Bool :=
  if g.mounted then
    match w.flexDOM with
    | none => false
    | some reg =>
      match reg.get sub.dataKey with
      | none => false
      | some node => node.current == g.latest && w.dom.keyOf g.latest == sub.dataKey
  else true

/-- The subscription-key invariant of a session. -/
def Session.Live (s : Session) : Prop :=
  s.ghost.length = s.run.vars.subs.length ∧
  ∀ e, e ∈ s.run.vars.subs.zip s.ghost → liveEntry s.run.world e.1 e.2 = true

/-- A session right after `useState`: no subscription yet. -/
def Session.Initial (s : Session) : Prop :=
  s.run.vars.subs = [] ∧ s.ghost = []

/-- A component call from world `w` that returned `el` in world `w1` kept keys unique: `el`
is a newly created element whose key is the key of no element that existed before, the keys
of those elements are as they were, and every registry record that existed is unchanged. -/
def Fresh (w w1 : World) (el : ElemId) : Prop :=
  w.dom.next ≤ el ∧ el < w1.dom.next ∧
  (∀ x, x < w.dom.next →
    w1.dom.keyOf x = w.dom.keyOf x ∧ w1.dom.keyName el ≠ w.dom.keyName x) ∧
  (∀ reg, w.flexDOM = some reg → ∃ reg1, w1.flexDOM = some reg1 ∧
    ∀ k, (reg.nodes k).isSome = true → reg1.nodes k = reg.nodes k)

/-- Every component call of the loop of `setState`, started in world `w`, returns and keeps
keys unique. -/
def rerenderFresh (ownEntries : Value → Props) (state : Value) : World → List Sub → Prop
  | _, [] => True
  | w, sub :: rest =>
    ∃ w1 el, sub.componentFn (renderProps ownEntries sub.mapStateToProps sub.fnProps state) w
        = .ok w1 el ∧ Fresh w w1 el ∧
      ∀ w2, w1.replace sub.dataKey el = .ok w2 () → rerenderFresh ownEntries state w2 rest

/-- The component calls of a step keep keys unique. -/
def Session.freshStep (s : Session) : Step → Prop
  | .connect componentFn mapStateToProps fnProps =>
    ∃ w1 el, componentFn (renderProps s.run.ownEntries (mapStateToProps.getD fun st => st)
        (fnProps.getD []) s.run.vars.state) s.run.world = .ok w1 el ∧ Fresh s.run.world w1 el
  | .mount _ _ => True
  | .set newStateOrFunc _ =>
    rerenderFresh s.run.ownEntries (newStateOrFunc.next s.run.vars.state) s.run.world
      s.run.vars.subs

/-- Sessions reachable from `s` by steps that go through and satisfy `allowed`. -/
inductive Reach (allowed : Session → Step → Prop) : Session → Session → Prop where
  | start (s : Session) : Reach allowed s s
  | next (s s1 s2 : Session) (st : Step) :
    Reach allowed s s1 → allowed s1 st → s1.step st = some s2 → Reach allowed s s2

/-- The condition kept for one subscription while keys stay unique: the element most
recently rendered for it exists and carries the recorded key, and once mounted the record
under that key has it as current element. -/
def Tracks (w : World) (sub : Sub) (g : Mount) : Prop :=
  g.latest < w.dom.next ∧ w.dom.keyOf g.latest = sub.dataKey ∧
  (g.mounted = true → ∃ reg node, w.flexDOM = some reg ∧
    reg.nodes sub.dataKey.toPropertyKey = some node ∧ node.current = g.latest)

/-- The condition kept for all subscriptions together: each one is tracked, and no two
recorded keys name the same registry record. -/
def AllTracked (w : World) (entries : List (Sub × Mount)) : Prop :=
  (∀ e, e ∈ entries → Tracks w e.1 e.2) ∧
  (entries.map fun e => e.1.dataKey.toPropertyKey).Nodup

/-- The invariant carried along a session while keys stay unique. -/
def Session.Inv (s : Session) : Prop :=
  s.ghost.length = s.run.vars.subs.length ∧
  AllTracked s.run.world (s.run.vars.subs.zip s.ghost)

/-- A component call from world `w` that returned `el` in world `w1` kept keys unique and
left the existing elements where they were: on top of `Fresh`, the parent of every element
that existed before is unchanged. -/
def Untouched (w w1 : World) (el : ElemId) : Prop :=
  Fresh w w1 el ∧
  ∀ x, x < w.dom.next → (w1.dom.elems x).parentNode = (w.dom.elems x).parentNode

/-- Every component call of the loop of `setState`, started in world `w`, returns, keeps keys
unique and leaves the existing elements where they were. -/
def rerenderUntouched (ownEntries : Value → Props) (state : Value) : World → List Sub → Prop
  | _, [] => True
  | w, sub :: rest =>
    ∃ w1 el, sub.componentFn (renderProps ownEntries sub.mapStateToProps sub.fnProps state) w
        = .ok w1 el ∧ Untouched w w1 el ∧
      ∀ w2, w1.replace sub.dataKey el = .ok w2 () → rerenderUntouched ownEntries state w2 rest

/-- Whether the registry of world `w` has a record under `key`. -/
def hasEntry (w : World) (key : Value) : Bool :=
  match w.flexDOM with
  | none => false
  | some reg => (reg.get key).isSome

/-- Whether, between world `w0` and world `w1`, the element `old` of a subscription has been
replaced by `el`: the record under the recorded key has `el` as current element, `el` carries
that key and sits under the parent that `old` had, and `old` has no parent any more. -/
def swapped (w0 w1 : World) (sub : Sub) (old el : ElemId) : Bool :=
  match w1.flexDOM with
  | none => false
  | some reg =>
    match reg.get sub.dataKey with
    | none => false
    | some node =>
      node.current == el && w1.dom.keyOf el == sub.dataKey &&
        ((w1.dom.elems el).parentNode == (w0.dom.elems old).parentNode) &&
        (w0.dom.elems old).parentNode.isSome && (w1.dom.elems old).parentNode.isNone

/-- Whether the call of `setState` that led from session `s` to run `r1` replaced every
subscriber's element by the element handed to the corresponding call of `replace`. -/
def Session.replacedAll (s : Session) (r1 : Run) : Bool :=
  let els := replacedBy (r1.trace.drop s.run.trace.length)
  els.length == s.ghost.length &&
    ((s.run.vars.subs.zip s.ghost).zip els).all fun e =>
      swapped s.run.world r1.world e.1.1 e.1.2.latest e.2

/-- The statement that `swapped` decides. -/
def Swapped (w0 w1 : World) (sub : Sub) (old el : ElemId) : Prop :=
  (∃ reg node, w1.flexDOM = some reg ∧
    reg.nodes sub.dataKey.toPropertyKey = some node ∧ node.current = el) ∧
  w1.dom.keyOf el = sub.dataKey ∧
  (w1.dom.elems el).parentNode = (w0.dom.elems old).parentNode ∧
  (w0.dom.elems old).parentNode ≠ none ∧ (w1.dom.elems old).parentNode = none

/-! ## Sample states -/

/-- A document with no element yet. -/
def Dom.empty : Dom :=
  { elems := fun _ =>
      { tagName := "", props := fun _ => .undefined, parentNode := none, childNodes := [] },
    next := 0 }

/-- A document holding `n` freshly created, unattached `div` elements `0, ..., n - 1`. -/
def Dom.fresh : Nat → Dom
  | 0 => Dom.empty
  | n + 1 => ((Dom.fresh n).createElement "div").1

/-- A registry without records. -/
def FlexDOM.empty : FlexDOM :=
  { nodes := fun _ => none, root := none }

/-- Three unattached elements, of which 1 and 2 carry the same key (the key that `c` assigns
whenever the random source returns 0 ten times in a row). -/
def Dom.twins : Dom :=
  ((Dom.fresh 3).setProp 1 "key" (.str "AAAAAAAAAA")).setProp 2 "key" (.str "AAAAAAAAAA")

/-- The registry state after `add(0, 1)` on the three sample elements. -/
def RegState.mounted : RegState :=
  (FlexDOM.add { reg := FlexDOM.empty, dom := Dom.twins } (some 0) (some 1)).state

/-- String method `toLowerCase()` on names in the ASCII range. -/
def asciiLowerCase (s : String) : String :=
  String.mk (s.toList.map Char.toLower)

/-- Property assignment in the sample environment: `tagName` is read-only, `value` on an
`input` turns a number into its decimal string, and every other assignment stores the value
as it is. -/
def sampleAssign (tagName name : String) (v : Value) : Assigned :=
  if name = "tagName" then .rejected .typeError
  else if tagName = "input" ∧ name = "value" then
    match v with
    | .num n => .stored (.str (toString n))
    | _ => .stored v
  else .stored v

/-- A sample environment with three behaviours of a browser, see `sampleAssign`; every
property but `textContent` is stable. -/
def Host.sample : Host :=
  { toLowerCase := asciiLowerCase,
    assign := sampleAssign,
    stable := fun _ name => name != "textContent",
    key_plain := by
      intro tagName v
      simp [sampleAssign] }

/-- A world without a registry whose random source always returns 0. -/
def World.blank : World :=
  { dom := Dom.empty, flexDOM := none, random := fun _ => { num := 0, den := 1 },
    host := Host.sample }

/-- A component that renders one `input` element carrying the properties it is given. -/
def Component.input : Component :=
  fun props w => c w "input" (.array []) props

/-- A world with a root element 0, a registry bound to it, and a random source whose
successive keys differ. -/
def World.started : World :=
  { dom := Dom.fresh 1,
    flexDOM := some { nodes := fun _ => none, root := some 0 },
    random := fun i => { num := i % 7, den := 7 },
    host := Host.sample }

/-- The mapper `state => ({ value: state })` on numeric states: state n is sent to the object
with reference n. -/
def valueMapper : Value → Value
  | .num n => .obj n.toNat
  | _ => .obj 0

/-- A container with state 2 and no subscriber yet, in the started world; the object with
reference n has the single property `value: n`. -/
def Run.start : Run :=
  { vars := useState (.num 2), world := World.started, trace := [],
    ownEntries := fun v =>
      match v with
      | .obj n => [("value", .num n)]
      | _ => [] }

/-- The run after `connectToState(Component.input)` twice, each returned element (1, then 2)
being mounted under the root with `add`. -/
def Run.mounted : Run :=
  let r1 := (connectToState Run.start Component.input (some valueMapper) none).state
  let r2 := (connectToState r1 Component.input (some valueMapper)
    (some [("name", .str "x")])).state
  { r2 with world := ((r2.world.add (some 0) (some 1)).state.add (some 0) (some 2)).state }

/-- A fresh container in a world whose random source always returns 0, so that every
generated key is the same. -/
def Session.stuckRandom : Session :=
  { run := { Run.start with
      world := { World.started with random := fun _ => { num := 0, den := 1 } } },
    ghost := [] }

/-- Two subscriptions, each connected and then mounted under the root. -/
def twoMounts : List Step :=
  [.connect Component.input none none, .mount 0 0,
   .connect Component.input none none, .mount 1 0]

/-- A fresh container in the started world. -/
def Session.fresh : Session :=
  { run := Run.start, ghost := [] }

/-- The session after `connectToState(Component.input, valueMapper)` on the fresh one. -/
def Session.afterConnect : Session :=
  (Session.fresh.step (.connect Component.input (some valueMapper) none)).getD Session.fresh

/-- The session after mounting the returned element under the root. -/
def Session.afterMount : Session :=
  (Session.afterConnect.step (.mount 0 0)).getD Session.fresh

/-- The session after `setState(5)`. -/
def Session.afterSet : Session :=
  (Session.afterMount.step (.set (.value (.num 5) rfl) none)).getD Session.fresh

/-- The session in which two subscriptions, connected and mounted while the random source
repeats, carry the same key. -/
def Session.collided : Session :=
  (Session.stuckRandom.steps twoMounts).getD Session.stuckRandom

/-- The session reached from the fresh one by the first `n` of the steps `twoMounts`. -/
def Session.afterSteps (n : Nat) : Session :=
  (Session.fresh.steps (twoMounts.take n)).getD Session.fresh

/-! # Theorems -/

/-! ## Key generation -/

theorem possible_length : possible.length = 66 := by decide

theorem scaledFloor_eq_floor (r : Draw) (length : Nat) :
    r.scaledFloor length = ⌊r.toRat * (length : ℚ)⌋ := by
  unfold Draw.scaledFloor Draw.toRat
  rw [div_mul_eq_mul_div]
  have h : ((r.num : ℚ) * (length : ℚ)) / (r.den : ℚ) =
      ((r.num * length : ℕ) : ℚ) / (r.den : ℚ) := by
    push_cast
    ring
  rw [h, Rat.floor_natCast_div_natCast]
  rfl

theorem charAt_possible_of_unit (r : Draw) (h : r.num < r.den) :
    ∃ ch, ch ∈ possible.toList ∧
      charAt possible (r.scaledFloor possible.length) = String.singleton ch := by
  rw [possible_length]
  have hhi : r.num * 66 / r.den < 66 := by
    rw [Nat.div_lt_iff_lt_mul (by omega)]
    nlinarith
  have hlt : r.num * 66 / r.den < possible.toList.length := by
    have : possible.toList.length = 66 := by decide
    omega
  refine ⟨possible.toList.get ⟨_, hlt⟩, List.get_mem _ _ _, ?_⟩
  simp only [Draw.scaledFloor, charAt]
  rw [List.get?_eq_get hlt]

theorem key_length (random : Nat → Draw) (n : Nat)
    (h : ∀ i, i < n → (random i).num < (random i).den) : (FlexDOM.key random n).length = n := by
  induction n with
  | zero => rfl
  | succ k ih =>
    obtain ⟨ch, -, hch⟩ := charAt_possible_of_unit (random k) (h k (by omega))
    simp only [FlexDOM.key, hch, String.length_append, String.length_singleton]
    rw [ih fun i hi => h i (by omega)]

theorem key_chars (random : Nat → Draw) (n : Nat)
    (h : ∀ i, i < n → (random i).num < (random i).den) :
    ∀ ch, ch ∈ (FlexDOM.key random n).toList → ch ∈ possible.toList := by
  induction n with
  | zero => intro ch hch; simp [FlexDOM.key] at hch
  | succ k ih =>
    obtain ⟨x, hx, hch⟩ := charAt_possible_of_unit (random k) (h k (by omega))
    intro ch hmem
    simp only [FlexDOM.key, hch, String.toList, String.data_append, List.mem_append] at hmem
    rcases hmem with hmem | hmem
    · exact ih (fun i hi => h i (by omega)) ch hmem
    · simp [String.singleton] at hmem
      exact hmem ▸ hx

/-- C7 (as stated, refuted): the claim that every generated key has the requested length over
an alphabet of 68 symbols fails, because the alphabet of the generator does not have 68
symbols. -/
theorem key_alphabet_not_68 :
    ¬ (∀ (random : Nat → Draw) (hashCharCount : Option Nat),
        (∀ i, (random i).num < (random i).den) →
        (FlexDOM.keyCall random hashCharCount).length = hashCharCount.getD 10 ∧
        (∀ ch, ch ∈ (FlexDOM.keyCall random hashCharCount).toList →
          ch ∈ possible.toList) ∧
        possible.length = 68) := by
  intro h
  have h68 := (h (fun _ => { num := 0, den := 1 }) none (fun _ => Nat.zero_lt_one)).2.2
  revert h68
  decide

/-- C7 (amended): for every length n (10 when omitted) and every outcome of the random source
with all draws in [0,1), the generated key has exactly n characters, each of them a member of
the alphabet, and the alphabet consists of 66 distinct symbols; the index drawn in each round
is the floor of the draw times the alphabet length. -/
theorem key_length_and_alphabet (random : Nat → Draw) (hashCharCount : Option Nat)
    (h : ∀ i, (random i).num < (random i).den) :
    (FlexDOM.keyCall random hashCharCount).length = hashCharCount.getD 10 ∧
    (∀ ch, ch ∈ (FlexDOM.keyCall random hashCharCount).toList → ch ∈ possible.toList) ∧
    possible.length = 66 ∧ possible.toList.Nodup ∧
    ∀ i, (random i).scaledFloor possible.length =
      ⌊(random i).toRat * (possible.length : ℚ)⌋ :=
  ⟨key_length random _ fun i _ => h i, key_chars random _ fun i _ => h i, by decide, by decide,
    fun i => scaledFloor_eq_floor _ _⟩

theorem key_length_and_alphabet_witness :
    (∀ i : Nat, (Draw.mk (i % 7) 7).num < (Draw.mk (i % 7) 7).den) ∧
    FlexDOM.keyCall (fun i => Draw.mk (i % 7) 7) (some 3) = "AJS" ∧
    (FlexDOM.keyCall (fun i => Draw.mk (i % 7) 7) (some 3)).length = 3 :=
  ⟨fun i => Nat.mod_lt i (by decide), by decide,
    (key_length_and_alphabet (fun i => Draw.mk (i % 7) 7) (some 3)
      fun i => Nat.mod_lt i (by decide)).1⟩

/-! ## Host document lemmas -/

theorem ancestorWithin_self (d : Dom) (a : ElemId) (fuel : Nat) :
    d.ancestorWithin a fuel a = true := by
  cases fuel <;> simp [Dom.ancestorWithin]

theorem detach_props (d : Dom) (x y : ElemId) :
    ((d.detach x).elems y).props = (d.elems y).props := by
  unfold Dom.detach
  split
  · rfl
  · simp only [Dom.update]
    split_ifs <;> rfl

theorem appendChild_eq (d : Dom) (p c : ElemId) (h : d.isInclusiveAncestor c p = false) :
    d.appendChild p c = .ok (((d.detach c).update p fun e =>
      { e with childNodes := e.childNodes ++ [c] }).update c fun e =>
      { e with parentNode := some p }) () := by
  simp [Dom.appendChild, h]

theorem appendChild_threw (d : Dom) (p c : ElemId) (h : d.isInclusiveAncestor c p = true) :
    d.appendChild p c = .threw d .hierarchyRequestError := by
  simp [Dom.appendChild, h]

theorem ne_of_not_ancestor (d : Dom) (p c : ElemId) (h : d.isInclusiveAncestor c p = false) :
    p ≠ c := by
  rintro rfl
  rw [Dom.isInclusiveAncestor, ancestorWithin_self] at h
  exact Bool.noConfusion h

theorem appendChild_props (d d1 : Dom) (p c : ElemId) (h : d.appendChild p c = .ok d1 ())
    (x : ElemId) : (d1.elems x).props = (d.elems x).props := by
  unfold Dom.appendChild at h
  split_ifs at h
  injection h with h1
  subst h1
  simp only [Dom.update]
  split_ifs <;> simp [detach_props]

theorem appendChild_last (d d1 : Dom) (p c : ElemId) (h : d.appendChild p c = .ok d1 ()) :
    (d1.elems p).childNodes.getLast? = some c ∧ (d1.elems c).parentNode = some p := by
  unfold Dom.appendChild at h
  split_ifs at h with hanc
  have hne : p ≠ c := ne_of_not_ancestor d p c (by simpa using hanc)
  injection h with h1
  subst h1
  simp [Dom.update, hne]

/-! ## Registry: add -/

/-- C8 (as stated, refuted): with one element in the document, add(x, x) has both arguments
present and still fails, because the host rejects appending an element to itself. -/
theorem add_fails_with_both_present :
    ¬ (∀ (s : RegState) (parent child : Option ElemId),
        (FlexDOM.add s parent child).isOk = false ↔ (parent = none ∨ child = none)) := by
  intro h
  have h1 := (h { reg := FlexDOM.empty, dom := Dom.fresh 1 } (some 0) (some 0)).mp (by decide)
  simp at h1

/-- C8 (amended): add(parent, child) throws "Parent doesn't exists" when parent is absent, and
"Child doesn't exists" when parent is present and child is absent; with both present it fails
exactly when the host rejects the insertion (child is parent or one of its ancestors); every
failure leaves the registry and the document unchanged; on success child is the last child of
parent and the record under child.key is {parent, current: child}, every other record and the
root being as before. -/
theorem add_outcome (s : RegState) (parent child : Option ElemId) :
    match parent, child with
    | none, _ => FlexDOM.add s parent child = .threw s (.error "Parent doesn't exists")
    | some _, none => FlexDOM.add s parent child = .threw s (.error "Child doesn't exists")
    | some p, some c =>
      if s.dom.isInclusiveAncestor c p then
        FlexDOM.add s parent child = .threw s .hierarchyRequestError
      else
        ∃ s1, FlexDOM.add s parent child = .ok s1 () ∧
          (s1.dom.elems p).childNodes.getLast? = some c ∧
          (s1.dom.elems c).parentNode = some p ∧
          (∀ x, (s1.dom.elems x).props = (s.dom.elems x).props) ∧
          s1.reg.nodes (s.dom.keyOf c).toPropertyKey = some { parent := p, current := c } ∧
          (∀ k, k ≠ (s.dom.keyOf c).toPropertyKey → s1.reg.nodes k = s.reg.nodes k) ∧
          s1.reg.root = s.reg.root := by
  cases parent with
  | none => rfl
  | some p =>
    cases child with
    | none => rfl
    | some c =>
      by_cases hanc : s.dom.isInclusiveAncestor c p = true
      · simp only [hanc, if_true, FlexDOM.add, appendChild_threw _ _ _ hanc]
      · have hf : s.dom.isInclusiveAncestor c p = false := by simpa using hanc
        have heq := appendChild_eq s.dom p c hf
        have hp := appendChild_props _ _ p c heq
        have hl := appendChild_last _ _ p c heq
        have hk : Dom.keyOf _ c = s.dom.keyOf c := congrFun (hp c) "key"
        simp only [hf, FlexDOM.add, heq, hk]
        refine ⟨_, rfl, hl.1, hl.2, hp, ?_, ?_, rfl⟩
        · simp [FlexDOM.setNode]
        · intro k hk1
          simp [FlexDOM.setNode, hk1]

theorem add_ok_inv (s s1 : RegState) (p c : ElemId)
    (h : FlexDOM.add s (some p) (some c) = .ok s1 ()) :
    (∀ x, (s1.dom.elems x).props = (s.dom.elems x).props) ∧
    s1.reg = s.reg.setNode (s.dom.keyName c) { parent := p, current := c } := by
  simp only [FlexDOM.add] at h
  split at h
  · exact Res.noConfusion h
  · rename_i d u hd
    cases u
    have hp := appendChild_props _ _ p c hd
    have hk : d.keyOf c = s.dom.keyOf c := congrFun (hp c) "key"
    injection h with h1
    subst h1
    exact ⟨hp, by simp [hk, Dom.keyName]⟩

theorem keyName_congr (d d1 : Dom) (h : ∀ x, (d1.elems x).props = (d.elems x).props)
    (x : ElemId) : d1.keyName x = d.keyName x := by
  simp [Dom.keyName, Dom.keyOf, h x]

theorem addSeq_props (calls : List (ElemId × ElemId)) :
    ∀ (s s1 : RegState), addSeq s calls = .ok s1 () →
      ∀ x, (s1.dom.elems x).props = (s.dom.elems x).props := by
  induction calls with
  | nil =>
    intro s s1 h x
    simp only [addSeq] at h
    injection h with h1
    subst h1
    rfl
  | cons call rest ih =>
    intro s s1 h x
    obtain ⟨p, c⟩ := call
    simp only [addSeq] at h
    split at h
    · rename_i s2 u hadd
      cases u
      rw [ih s2 s1 h x, (add_ok_inv s s2 p c hadd).1 x]
    · exact Res.noConfusion h

theorem addSeq_untouched (calls : List (ElemId × ElemId)) :
    ∀ (s s1 : RegState) (k : String), addSeq s calls = .ok s1 () →
      (∀ q, q ∈ calls → s.dom.keyName q.2 ≠ k) → s1.reg.nodes k = s.reg.nodes k := by
  induction calls with
  | nil =>
    intro s s1 k h _
    simp only [addSeq] at h
    injection h with h1
    subst h1
    rfl
  | cons call rest ih =>
    intro s s1 k h hk
    obtain ⟨p, c⟩ := call
    simp only [addSeq] at h
    split at h
    · rename_i s2 u hadd
      cases u
      obtain ⟨hp, hreg⟩ := add_ok_inv s s2 p c hadd
      rw [ih s2 s1 k h, hreg]
      · have := hk (p, c) (List.mem_cons_self _ _)
        simp only [FlexDOM.setNode]
        rw [if_neg (Ne.symm this)]
      · intro q hq
        rw [keyName_congr s.dom s2.dom hp]
        exact hk q (List.mem_cons_of_mem _ hq)
    · exact Res.noConfusion h

/-- C2 (as stated, refuted): after add(0, 1) and add(0, 2), where elements 1 and 2 carry the
same key, looking up the key of child 1 yields element 2, not element 1. -/
theorem add_sequence_key_collision :
    ¬ (∀ (s s1 : RegState) (calls : List (ElemId × ElemId)), addSeq s calls = .ok s1 () →
        ∀ q, q ∈ calls →
          s1.reg.get (s1.dom.keyOf q.2) = some { parent := q.1, current := q.2 }) := by
  intro h
  have h1 := h { reg := FlexDOM.empty, dom := Dom.twins }
    (addSeq { reg := FlexDOM.empty, dom := Dom.twins } [(0, 1), (0, 2)]).state
    [(0, 1), (0, 2)] rfl (0, 1) (by simp)
  revert h1
  decide

/-- C2 (amended): when a sequence of add calls with present arguments runs to its end, every
call whose child key is not used again by the child of a later call is retrievable: get of
that child's key returns {parent, current: child} as passed; the keys of all elements are the
ones they had before the sequence. -/
theorem add_sequence_retrievable (s s1 : RegState) (before after : List (ElemId × ElemId))
    (p c : ElemId) (hrun : addSeq s (before ++ (p, c) :: after) = .ok s1 ())
    (hlast : ∀ q, q ∈ after → s.dom.keyName q.2 ≠ s.dom.keyName c) :
    s1.reg.get (s1.dom.keyOf c) = some { parent := p, current := c } ∧
    ∀ x, s1.dom.keyOf x = s.dom.keyOf x := by
  have hprops := addSeq_props _ s s1 hrun
  have hkey : ∀ x, s1.dom.keyOf x = s.dom.keyOf x := fun x => congrFun (hprops x) "key"
  refine ⟨?_, hkey⟩
  rw [hkey c]
  clear hprops hkey
  induction before generalizing s with
  | nil =>
    simp only [List.nil_append, addSeq] at hrun
    split at hrun
    · rename_i s2 u hadd
      cases u
      obtain ⟨hp, hreg⟩ := add_ok_inv s s2 p c hadd
      have := addSeq_untouched after s2 s1 (s.dom.keyName c) hrun (by
        intro q hq
        rw [keyName_congr s.dom s2.dom hp]
        exact hlast q hq)
      show s1.reg.nodes (s.dom.keyName c) = _
      rw [this, hreg]
      simp [FlexDOM.setNode]
    · exact Res.noConfusion hrun
  | cons call rest ih =>
    obtain ⟨p0, c0⟩ := call
    simp only [List.cons_append, addSeq] at hrun
    split at hrun
    · rename_i s2 u hadd
      cases u
      obtain ⟨hp, -⟩ := add_ok_inv s s2 p0 c0 hadd
      have hk : ∀ x, s2.dom.keyOf x = s.dom.keyOf x := fun x => congrFun (hp x) "key"
      have := ih s2 hrun (by
        intro q hq
        rw [keyName_congr s.dom s2.dom hp, keyName_congr s.dom s2.dom hp]
        exact hlast q hq)
      rw [← hk c]
      exact this
    · exact Res.noConfusion hrun

theorem add_sequence_retrievable_witness :
    (FlexDOM.get (addSeq { reg := FlexDOM.empty, dom := Dom.twins } [(0, 2), (0, 1)]).state.reg
      ((addSeq { reg := FlexDOM.empty, dom := Dom.twins } [(0, 2), (0, 1)]).state.dom.keyOf 1) =
        some { parent := 0, current := 1 }) ∧
    ∀ x, (addSeq { reg := FlexDOM.empty, dom := Dom.twins } [(0, 2), (0, 1)]).state.dom.keyOf x =
      Dom.twins.keyOf x :=
  add_sequence_retrievable { reg := FlexDOM.empty, dom := Dom.twins } _ [(0, 2)] [] 0 1 rfl
    (by simp)

/-! ## Registry: replace -/

theorem ancestorWithin_setProp (d : Dom) (x : ElemId) (name : String) (v : Value) (a : ElemId)
    (fuel : Nat) (y : ElemId) :
    (d.setProp x name v).ancestorWithin a fuel y = d.ancestorWithin a fuel y := by
  induction fuel generalizing y with
  | zero => rfl
  | succ k ih =>
    have hpar : ((d.setProp x name v).elems y).parentNode = (d.elems y).parentNode := by
      simp only [Dom.setProp, Dom.update]
      split_ifs <;> rfl
    simp only [Dom.ancestorWithin, hpar]
    cases (d.elems y).parentNode with
    | none => rfl
    | some q => simp only [ih]

theorem setProp_parentNode (d : Dom) (x : ElemId) (name : String) (v : Value) (y : ElemId) :
    ((d.setProp x name v).elems y).parentNode = (d.elems y).parentNode := by
  simp only [Dom.setProp, Dom.update]
  split_ifs <;> rfl

theorem replaceChild_props (d d1 : Dom) (p n e : ElemId)
    (h : d.replaceChild p n e = .ok d1 ()) (x : ElemId) :
    (d1.elems x).props = (d.elems x).props := by
  unfold Dom.replaceChild at h
  split_ifs at h
  · injection h with h1
    subst h1
    rfl
  · injection h with h1
    subst h1
    simp only [Dom.update]
    split_ifs <;> simp [detach_props]

theorem replaceChild_isOk (d : Dom) (p n e : ElemId) :
    (d.replaceChild p n e).isOk = true ↔
      (d.isInclusiveAncestor n p = false ∧ (d.elems e).parentNode = some p) := by
  unfold Dom.replaceChild
  split_ifs with h1 h2 h3 <;> simp_all [Res.isOk]

/-- C1: for every registry state, every key with a record {parent: p, current: e} and every
element n, replace(key, n) returns exactly when the host accepts the swap (n is neither p nor
an ancestor of p, and e is a child of p), and once it has returned, get(key) is the record
{parent: p, current: n} and the key property of n is key. -/
theorem replace_keeps_key_identity (s : RegState) (key : Value) (p e n : ElemId)
    (h : s.reg.get key = some { parent := p, current := e }) :
    ((FlexDOM.replace s key n).isOk = true ↔
      (s.dom.isInclusiveAncestor n p = false ∧ (s.dom.elems e).parentNode = some p)) ∧
    ((FlexDOM.replace s key n).isOk = true →
      (FlexDOM.replace s key n).state.reg.get key = some { parent := p, current := n } ∧
      (FlexDOM.replace s key n).state.dom.keyOf n = key) := by
  have hiff := replaceChild_isOk (s.dom.setProp n "key" key) p n e
  rw [Dom.isInclusiveAncestor, ancestorWithin_setProp, setProp_parentNode] at hiff
  simp only [FlexDOM.replace, h]
  cases hrc : (s.dom.setProp n "key" key).replaceChild p n e with
  | threw d err =>
    rw [hrc] at hiff
    exact ⟨by simpa [Res.isOk] using hiff, by simp [Res.isOk]⟩
  | ok d u =>
    cases u
    rw [hrc] at hiff
    refine ⟨by simpa [Res.isOk, Dom.isInclusiveAncestor] using hiff, fun _ => ?_⟩
    have hp := replaceChild_props _ _ p n e hrc n
    constructor
    · simp [Res.state, FlexDOM.get, FlexDOM.setNode]
    · simp [Res.state, Dom.keyOf, hp, Dom.setProp, Dom.update]

theorem replace_keeps_key_identity_witness :
    RegState.mounted.reg.get (.str "AAAAAAAAAA") = some { parent := 0, current := 1 } ∧
    (FlexDOM.replace RegState.mounted (.str "AAAAAAAAAA") 2).isOk = true ∧
    (FlexDOM.replace RegState.mounted (.str "AAAAAAAAAA") 2).state.reg.get (.str "AAAAAAAAAA") =
      some { parent := 0, current := 2 } :=
  have h := replace_keeps_key_identity RegState.mounted (.str "AAAAAAAAAA") 0 1 2 (by decide)
  ⟨by decide, h.1.mpr (by decide), (h.2 (h.1.mpr (by decide))).1⟩

/-! ## Component constructor -/

theorem propKey_eq_installedName (host : Host) (key : String) (value : Value) :
    propKey host key value = installedName host.toLowerCase key value := by
  cases value <;> rfl

theorem applyProps_none (host : Host) (tagName : String) (el : ElemId) (props : Props) :
    ∀ (d d1 : Dom), applyProps host tagName el d props = .ok d1 () →
      ∀ name, lastInstalled host.toLowerCase props name = none →
        (d1.elems el).props name = (d.elems el).props name := by
  induction props with
  | nil =>
    intro d d1 h name _
    simp only [applyProps] at h
    injection h with h1
    subst h1
    rfl
  | cons e rest ih =>
    intro d d1 h name hnone
    obtain ⟨k, x⟩ := e
    simp only [applyProps] at h
    simp only [lastInstalled] at hnone
    split at h
    · rename_i x1 hx1
      cases hrest : lastInstalled host.toLowerCase rest name with
      | some v => simp [hrest] at hnone
      | none =>
        simp only [hrest] at hnone
        have hne : ¬ name = propKey host k x := by
          rw [propKey_eq_installedName]
          intro heq
          simp [heq] at hnone
        rw [ih _ _ h name hrest]
        simp [Dom.setProp, Dom.update, hne]
    · exact Res.noConfusion h

theorem applyProps_last (host : Host) (tagName : String) (el : ElemId) (props : Props) :
    ∀ (d d1 : Dom), applyProps host tagName el d props = .ok d1 () →
      ∀ name v, lastInstalled host.toLowerCase props name = some v →
        host.assign tagName name v = .stored v → (d1.elems el).props name = v := by
  induction props with
  | nil =>
    intro d d1 _ name v hlast
    simp [lastInstalled] at hlast
  | cons e rest ih =>
    intro d d1 h name v hlast hkeep
    obtain ⟨k, x⟩ := e
    simp only [applyProps] at h
    simp only [lastInstalled] at hlast
    split at h
    · rename_i x1 hx1
      cases hrest : lastInstalled host.toLowerCase rest name with
      | some v1 =>
        simp only [hrest, Option.some.injEq] at hlast
        subst hlast
        exact ih _ _ h name v1 hrest hkeep
      | none =>
        simp only [hrest] at hlast
        split_ifs at hlast with hname
        simp only [Option.some.injEq] at hlast
        subst hlast
        rw [← propKey_eq_installedName] at hname
        rw [hname, hkeep] at hx1
        injection hx1 with hx1
        subst hx1
        rw [applyProps_none host tagName el rest _ _ h name hrest]
        simp [Dom.setProp, Dom.update, hname]
    · exact Res.noConfusion h

theorem world_add_props (w w1 : World) (parent child : Option ElemId)
    (h : w.add parent child = .ok w1 ()) (x : ElemId) :
    (w1.dom.elems x).props = (w.dom.elems x).props := by
  unfold World.add at h
  split at h
  · exact Res.noConfusion h
  · rename_i reg
    split at h
    · rename_i s u hadd
      cases u
      injection h with h1
      subst h1
      cases parent with
      | none => exact Res.noConfusion hadd
      | some p =>
        cases child with
        | none => exact Res.noConfusion hadd
        | some c => exact (add_ok_inv _ s p c hadd).1 x
    · exact Res.noConfusion h

theorem addAll_props (el : ElemId) (items : List (Option ElemId)) :
    ∀ (w w1 : World), addAll el w items = .ok w1 () →
      ∀ x, (w1.dom.elems x).props = (w.dom.elems x).props := by
  induction items with
  | nil =>
    intro w w1 h x
    simp only [addAll] at h
    injection h with h1
    subst h1
    rfl
  | cons child rest ih =>
    intro w w1 h x
    simp only [addAll] at h
    split at h
    · rename_i w2 u hadd
      cases u
      rw [ih w2 w1 h x, world_add_props w w2 _ _ hadd x]
    · exact Res.noConfusion h

/-- C9 (as stated, refuted): c('h1', 'b', {textContent: 'a'}) returns an element whose
textContent property holds 'b', not the value 'a' of the last entry installed under that
name. -/
theorem c_text_children_override_prop :
    ¬ (∀ (w w1 : World) (tagName : String) (children : Children) (props : Props) (el : ElemId),
        c w tagName children props = .ok w1 el →
        ∀ name v, lastInstalled w.host.toLowerCase props name = some v →
          (w1.dom.elems el).props name = v) := by
  intro h
  have h1 := h World.blank (c World.blank "h1" (.text "b") [("textContent", .str "a")]).state
    "h1" (.text "b") [("textContent", .str "a")] 0 rfl "textContent" (.str "a") rfl
  revert h1
  decide

/-- C9 (amended): the installed name of an entry (k, v) is the lower-cased k if v is
callable and k itself otherwise.  When c returns, for every property name p and the value v
of the last entry of the bag whose installed name is p: if the host keeps v under p (it stores
v as it is and p is stable), the returned element's p holds v, unless p is textContent and
children is a string; in that case textContent holds what the host stores for that string.
When no entry is installed under key, the element's key is the generated key. -/
theorem c_installs_props (w w1 : World) (tagName : String) (children : Children) (props : Props)
    (el : ElemId) (h : c w tagName children props = .ok w1 el) :
    (∀ name v, lastInstalled w.host.toLowerCase props name = some v →
      (name = "textContent" → children.text? = none) →
      w.host.keeps tagName name v → (w1.dom.elems el).props name = v) ∧
    (∀ s, children = .text s →
      w.host.assign tagName "textContent" (.str s) =
        .stored ((w1.dom.elems el).props "textContent")) ∧
    (lastInstalled w.host.toLowerCase props "key" = none →
      w1.dom.keyOf el = .str (FlexDOM.keyCall w.random none)) := by
  simp only [c, Dom.createElement, World.freshKey] at h
  split at h
  · exact Res.noConfusion h
  · rename_i d3 u hap
    cases u
    have hbase : ∀ n, ((Dom.setProp
        { elems := fun y => if y = w.dom.next then
            { tagName := tagName, props := fun _ => Value.undefined, parentNode := none,
              childNodes := [] }
          else w.dom.elems y, next := w.dom.next + 1 } w.dom.next "key"
        (.str (FlexDOM.keyCall w.random none))).elems w.dom.next).props n =
        if n = "key" then .str (FlexDOM.keyCall w.random none) else .undefined := by
      intro n
      simp [Dom.setProp, Dom.update]
    have hlast := applyProps_last w.host tagName w.dom.next props _ _ hap
    have hnone := applyProps_none w.host tagName w.dom.next props _ _ hap
    have hfinal : ∀ name, (name = "textContent" → children.text? = none) →
        (w1.dom.elems el).props name = (d3.elems w.dom.next).props name := by
      intro name htext
      cases children with
      | text s =>
        have hn : ¬ name = "textContent" := fun hh => by simpa [Children.text?] using htext hh
        simp only at h
        split at h
        · injection h with h1 h2
          subst h1 h2
          simp [Dom.setProp, Dom.update, hn]
        · exact Res.noConfusion h
      | array items =>
        simp only at h
        split at h
        · rename_i w3 u hadd
          cases u
          injection h with h1 h2
          subst h1 h2
          exact congrFun (addAll_props _ items _ _ hadd _) name
        · exact Res.noConfusion h
      | other =>
        simp only at h
        injection h with h1 h2
        subst h1 h2
        rfl
    refine ⟨fun name v hl htext hk => ?_, fun s hs => ?_, fun hl => ?_⟩
    · rw [hfinal name htext]
      exact hlast name v hl hk.1
    · subst hs
      simp only at h
      split at h
      · rename_i v hv
        injection h with h1 h2
        subst h1 h2
        simp [hv, Dom.setProp, Dom.update]
      · exact Res.noConfusion h
    · show (w1.dom.elems el).props "key" = _
      rw [hfinal "key" (fun hh => absurd hh (by decide)), hnone "key" hl]
      exact hbase "key"

theorem c_installs_props_witness :
    (c World.blank "input" (.array [])
      [("onInput", .fn 1 "e => 0"), ("value", .num 2), ("name", .str "x")]).isOk = true ∧
    lastInstalled asciiLowerCase
      [("onInput", .fn 1 "e => 0"), ("value", .num 2), ("name", .str "x")] "oninput" =
        some (.fn 1 "e => 0") ∧
    Host.sample.keeps "input" "oninput" (.fn 1 "e => 0") ∧
    ((c World.blank "input" (.array []) [("onInput", .fn 1 "e => 0"), ("value", .num 2),
      ("name", .str "x")]).state.dom.elems 0).props "oninput" = .fn 1 "e => 0" ∧
    ((c World.blank "input" (.array []) [("onInput", .fn 1 "e => 0"), ("value", .num 2),
      ("name", .str "x")]).state.dom.elems 0).props "value" = .str "2" ∧
    (c World.blank "input" (.array []) [("tagName", .str "x")]).isOk = false :=
  ⟨rfl, rfl, ⟨rfl, rfl⟩,
    (c_installs_props World.blank
      (c World.blank "input" (.array [])
        [("onInput", .fn 1 "e => 0"), ("value", .num 2), ("name", .str "x")]).state
      "input" (.array []) [("onInput", .fn 1 "e => 0"), ("value", .num 2), ("name", .str "x")]
      0 rfl).1 "oninput" (.fn 1 "e => 0") rfl (fun _ => rfl) ⟨rfl, rfl⟩,
    by decide, by decide⟩

/-! ## State container -/

/-- C3: when the next value (the argument itself, or the updater applied to the current state)
is not different from the current state under the strict comparison, setState returns
with the run exactly as it was: no call of replace, no component function invoked, state and
subscriber list unchanged, whatever skipRender is. -/
theorem setState_same_value_is_noop (r : Run) (newStateOrFunc : StateArg)
    (skipRender : Option Bool)
    (h : (newStateOrFunc.next r.vars.state).strictNe r.vars.state = false) :
    setState r newStateOrFunc skipRender = .ok r () := by
  simp [setState, h]

theorem setState_same_value_is_noop_witness :
    ((StateArg.func fun v => v).next Run.mounted.vars.state).strictNe Run.mounted.vars.state
      = false ∧
    Run.mounted.vars.subs.length = 2 ∧
    (setState Run.mounted (.func fun v => v) none).state.trace = Run.mounted.trace :=
  ⟨by decide, by decide,
    congrArg (fun res => res.state.trace)
      (setState_same_value_is_noop Run.mounted (.func fun v => v) none (by decide))⟩

/-- C4: for a value v different from the current state, setState(v, true) returns with the
world (registry and document) and the trace of calls unchanged and the subscriber list as
before, and stores v; a connectToState call made afterwards invokes its component function
with fixedProps overridden by the properties of mapStateToProps(v). -/
theorem setState_skipRender_stores_value (r : Run) (v : Value) (hv : v.isCallable = false)
    (hne : v.strictNe r.vars.state = true) :
    ∃ r1, setState r (.value v hv) (some true) = .ok r1 () ∧
      r1.world = r.world ∧ r1.trace = r.trace ∧ r1.vars.subs = r.vars.subs ∧
      r1.vars.state = v ∧
      ∀ (componentFn : Component) (mapStateToProps : Option (Value → Value))
        (fnProps : Option Props),
        ∃ returned, (connectToState r1 componentFn mapStateToProps fnProps).state.trace =
          r.trace ++ [.render componentFn
            (spread (fnProps.getD []) (r.ownEntries ((mapStateToProps.getD fun s => s) v)))
            returned] := by
  refine ⟨{ r with vars := { r.vars with state := v } }, ?_, rfl, rfl, rfl, rfl, ?_⟩
  · simp [setState, StateArg.next, hne]
  · intro componentFn mapStateToProps fnProps
    simp only [connectToState, renderProps]
    split
    · exact ⟨none, rfl⟩
    · rename_i w element _
      exact ⟨some element, rfl⟩

theorem setState_skipRender_stores_value_witness :
    (Value.num 3).strictNe Run.mounted.vars.state = true ∧
    ∃ r1, setState Run.mounted (.value (.num 3) rfl) (some true) = .ok r1 () ∧
      r1.world = Run.mounted.world ∧ r1.trace = Run.mounted.trace ∧ r1.vars.state = .num 3 :=
  ⟨by decide,
    match setState_skipRender_stores_value Run.mounted (.num 3) rfl (by decide) with
    | ⟨r1, h1, h2, h3, _, h5, _⟩ => ⟨r1, h1, h2, h3, h5⟩⟩

theorem rerender_ok_trace (ownEntries : Value → Props) (state : Value) (subs : List Sub) :
    ∀ (w w1 : World) (trace trace1 : List Event),
      rerender ownEntries state w trace subs = .ok (w1, trace1) () →
      ∃ els : List ElemId, els.length = subs.length ∧
        trace1 = trace ++ rerenderCalls ownEntries state subs els := by
  induction subs with
  | nil =>
    intro w w1 trace trace1 h
    simp only [rerender] at h
    injection h with h1
    injection h1 with h2 h3
    exact ⟨[], rfl, by simp [rerenderCalls, h3]⟩
  | cons sub rest ih =>
    intro w w1 trace trace1 h
    simp only [rerender] at h
    split at h
    · exact Res.noConfusion h
    · split at h
      · exact Res.noConfusion h
      · rename_i w2 element _
        split at h
        · exact Res.noConfusion h
        · rename_i w3 _ _
          obtain ⟨els, hlen, htr⟩ := ih _ _ _ _ h
          exact ⟨element :: els, by simp [hlen], by simp [htr, rerenderCalls]⟩

theorem rerenderCalls_count (ownEntries : Value → Props) (state : Value) (subs : List Sub) :
    ∀ els : List ElemId, els.length = subs.length →
      ((rerenderCalls ownEntries state subs els).filter Event.isReplace).length = subs.length ∧
      (rerenderCalls ownEntries state subs els).filter Event.isReplace =
        (subs.zip els).map fun q => Event.replace q.1.dataKey q.2 := by
  induction subs with
  | nil => intro els _; cases els <;> simp [rerenderCalls]
  | cons sub rest ih =>
    intro els hlen
    cases els with
    | nil => simp at hlen
    | cons el els =>
      obtain ⟨h1, h2⟩ := ih els (by simpa using hlen)
      constructor
      · simp [rerenderCalls, Event.isReplace, h1]
      · simp [rerenderCalls, Event.isReplace, h2]

/-! ## Property bags: lookup after a spread -/

theorem lookup_cons_eq (k : String) (v : Value) (rest : Props) (name : String) :
    List.lookup name ((k, v) :: rest) = if name = k then some v else List.lookup name rest := by
  by_cases h : name = k
  · simp [List.lookup, h]
  · have : (name == k) = false := by simpa using h
    simp [List.lookup, h, this]

theorem lookup_assign (o : Props) (k : String) (v : Value) (name : String) :
    List.lookup name (assign o k v) = if name = k then some v else List.lookup name o := by
  induction o with
  | nil => simp [assign, lookup_cons_eq]
  | cons e rest ih =>
    obtain ⟨k0, v0⟩ := e
    simp only [assign]
    by_cases h0 : k0 = k
    · subst h0
      simp only [if_true, lookup_cons_eq]
      split_ifs <;> rfl
    · simp only [h0, if_false, lookup_cons_eq, ih]
      by_cases h1 : name = k0
      · have : ¬ name = k := fun h => h0 (h1 ▸ h)
        simp [h1, h0]
      · simp [h1]

theorem keys_assign (o : Props) (k : String) (v : Value) :
    (assign o k v).map Prod.fst = if k ∈ o.map Prod.fst then o.map Prod.fst
      else o.map Prod.fst ++ [k] := by
  induction o with
  | nil => simp [assign]
  | cons e rest ih =>
    obtain ⟨k0, v0⟩ := e
    simp only [assign]
    by_cases h0 : k0 = k
    · simp [h0]
    · have h1 : ¬ k = k0 := fun h => h0 h.symm
      simp only [h0, if_false, List.map_cons, ih, List.mem_cons, h1, false_or]
      split_ifs <;> simp

theorem nodup_assign (o : Props) (k : String) (v : Value) (h : (o.map Prod.fst).Nodup) :
    ((assign o k v).map Prod.fst).Nodup := by
  rw [keys_assign]
  split_ifs with hk
  · exact h
  · exact List.Nodup.append h (List.nodup_singleton k) (by simpa using hk)

theorem foldl_assign (l : Props) :
    ∀ o : Props, (o.map Prod.fst).Nodup →
      ((l.foldl (fun o e => assign o e.1 e.2) o).map Prod.fst).Nodup ∧
      ∀ name, List.lookup name (l.foldl (fun o e => assign o e.1 e.2) o) =
        match List.lookup name l.reverse with
        | some v => some v
        | none => List.lookup name o := by
  induction l with
  | nil => intro o h; exact ⟨h, fun name => rfl⟩
  | cons e rest ih =>
    intro o h
    obtain ⟨hn, hl⟩ := ih (assign o e.1 e.2) (nodup_assign o e.1 e.2 h)
    refine ⟨hn, fun name => ?_⟩
    simp only [List.foldl_cons, hl, List.reverse_cons, List.lookup_append, lookup_assign]
    cases List.lookup name rest.reverse with
    | some v => rfl
    | none =>
      obtain ⟨k, v⟩ := e
      simp only [lookup_cons_eq, List.lookup_nil, Option.none_or]
      split_ifs <;> rfl

theorem lookup_none_of_not_mem (l : Props) (name : String) (h : name ∉ l.map Prod.fst) :
    List.lookup name l = none := by
  induction l with
  | nil => rfl
  | cons e rest ih =>
    obtain ⟨k, v⟩ := e
    simp only [List.map_cons, List.mem_cons, not_or] at h
    rw [lookup_cons_eq, if_neg h.1, ih h.2]

theorem lookup_reverse_nodup (l : Props) (h : (l.map Prod.fst).Nodup) (name : String) :
    List.lookup name l.reverse = List.lookup name l := by
  induction l with
  | nil => rfl
  | cons e rest ih =>
    obtain ⟨k, v⟩ := e
    simp only [List.map_cons, List.nodup_cons] at h
    rw [List.reverse_cons, List.lookup_append, ih h.2, lookup_cons_eq, lookup_cons_eq]
    by_cases hk : name = k
    · subst hk
      simp [lookup_none_of_not_mem rest name h.1]
    · simp [hk]

theorem lookup_filter_key (q : String → Bool) (o : Props) (name : String) :
    List.lookup name (o.filter fun e => q e.1) = if q name then List.lookup name o else none := by
  induction o with
  | nil => simp
  | cons e rest ih =>
    obtain ⟨k, v⟩ := e
    by_cases hq : q k = true
    · rw [List.filter_cons_of_pos (by simpa using hq), lookup_cons_eq, lookup_cons_eq, ih]
      by_cases hk : name = k
      · subst hk
        simp [hq]
      · simp [hk]
    · rw [List.filter_cons_of_neg (by simpa using hq), lookup_cons_eq, ih]
      by_cases hk : name = k
      · subst hk
        simp [hq]
      · simp [hk]

theorem keys_insertByIndex (e : String × Value) (l : Props) (k : String) :
    k ∈ (insertByIndex e l).map Prod.fst ↔ k = e.1 ∨ k ∈ l.map Prod.fst := by
  induction l with
  | nil => simp [insertByIndex]
  | cons x rest ih =>
    simp only [insertByIndex]
    split_ifs
    · simp
    · simp only [List.map_cons, List.mem_cons, ih]
      tauto

theorem lookup_insertByIndex (e : String × Value) (l : Props) (name : String)
    (h : e.1 ∉ l.map Prod.fst) :
    List.lookup name (insertByIndex e l) =
      if name = e.1 then some e.2 else List.lookup name l := by
  induction l with
  | nil =>
    obtain ⟨k, v⟩ := e
    simp [insertByIndex, lookup_cons_eq]
  | cons x rest ih =>
    obtain ⟨k, v⟩ := e
    obtain ⟨k0, v0⟩ := x
    simp only [List.map_cons, List.mem_cons, not_or] at h
    by_cases hle : (arrayIndex? k).getD 0 ≤ (arrayIndex? k0).getD 0
    · simp only [insertByIndex, hle, if_true]
      rw [lookup_cons_eq]
    · simp only [insertByIndex, hle, if_false]
      rw [lookup_cons_eq, ih h.2, lookup_cons_eq]
      by_cases h1 : name = k0
      · have h2 : ¬ k0 = k := fun hk => h.1 hk.symm
        simp [h1, h2]
      · simp [h1]

theorem lookup_foldr_insertByIndex (l : Props) (h : (l.map Prod.fst).Nodup) :
    (∀ k, k ∈ (l.foldr insertByIndex []).map Prod.fst ↔ k ∈ l.map Prod.fst) ∧
    ∀ name, List.lookup name (l.foldr insertByIndex []) = List.lookup name l := by
  induction l with
  | nil => exact ⟨fun k => Iff.rfl, fun name => rfl⟩
  | cons e rest ih =>
    simp only [List.map_cons, List.nodup_cons] at h
    obtain ⟨hk, hl⟩ := ih h.2
    constructor
    · intro k
      simp only [List.foldr_cons, keys_insertByIndex, hk, List.map_cons, List.mem_cons]
    · intro name
      rw [List.foldr_cons, lookup_insertByIndex _ _ _ (by rw [hk]; exact h.1), hl]
      obtain ⟨k, v⟩ := e
      rw [lookup_cons_eq]

theorem lookup_ownOrder (o : Props) (h : (o.map Prod.fst).Nodup) (name : String) :
    List.lookup name (ownOrder o) = List.lookup name o := by
  have hsub : ((o.filter fun e => (arrayIndex? e.1).isSome).map Prod.fst).Nodup :=
    List.Nodup.sublist (List.Sublist.map _ (List.filter_sublist _)) h
  unfold ownOrder
  rw [List.lookup_append, (lookup_foldr_insertByIndex _ hsub).2,
    lookup_filter_key (fun k => (arrayIndex? k).isSome),
    lookup_filter_key (fun k => !(arrayIndex? k).isSome)]
  cases (arrayIndex? name).isSome <;> simp

theorem lookup_spread (a b : Props) (hb : (b.map Prod.fst).Nodup) (ha : (a.map Prod.fst).Nodup)
    (name : String) :
    List.lookup name (spread a b) =
      match List.lookup name b with
      | some v => some v
      | none => List.lookup name a := by
  obtain ⟨hn, hl⟩ := foldl_assign (a ++ b) [] List.nodup_nil
  unfold spread
  rw [lookup_ownOrder _ hn, hl, List.reverse_append, List.lookup_append,
    lookup_reverse_nodup b hb, lookup_reverse_nodup a ha]
  cases List.lookup name b with
  | some v => rfl
  | none =>
    cases List.lookup name a <;> rfl

theorem rerender_render_events (ownEntries : Value → Props) (state : Value) (subs : List Sub) :
    ∀ (w : World) (trace : List Event),
      ∃ evs, (rerender ownEntries state w trace subs).state.2 = trace ++ evs ∧
        ∀ f props ret, Event.render f props ret ∈ evs →
          ∃ sub, sub ∈ subs ∧ f = sub.componentFn ∧
            props = renderProps ownEntries sub.mapStateToProps sub.fnProps state := by
  induction subs with
  | nil =>
    intro w trace
    exact ⟨[], by simp [rerender, Res.state], by simp⟩
  | cons sub rest ih =>
    intro w trace
    simp only [rerender]
    split
    · exact ⟨[], by simp [Res.state], by simp⟩
    · split
      · refine ⟨[_], rfl, ?_⟩
        intro f props ret hmem
        simp only [List.mem_singleton, Event.render.injEq] at hmem
        exact ⟨sub, List.mem_cons_self _ _, hmem.1, hmem.2.1⟩
      · rename_i w1 element _
        split
        · refine ⟨[_, _], rfl, ?_⟩
          intro f props ret hmem
          simp only [List.mem_cons, Event.render.injEq, List.mem_singleton, reduceCtorEq,
            or_false, List.not_mem_nil] at hmem
          exact ⟨sub, List.mem_cons_self _ _, hmem.1, hmem.2.1⟩
        · rename_i w2 _ _
          obtain ⟨evs, htr, hev⟩ := ih w2
            (trace ++ [.render sub.componentFn
              (renderProps ownEntries sub.mapStateToProps sub.fnProps state) (some element),
              .replace sub.dataKey element])
          refine ⟨.render sub.componentFn
              (renderProps ownEntries sub.mapStateToProps sub.fnProps state) (some element) ::
              .replace sub.dataKey element :: evs, by simp [htr], ?_⟩
          intro f props ret hmem
          simp only [List.mem_cons, Event.render.injEq, reduceCtorEq, false_or] at hmem
          rcases hmem with hmem | hmem
          · exact ⟨sub, List.mem_cons_self _ _, hmem.1, hmem.2.1⟩
          · obtain ⟨sub1, hs, hf, hp⟩ := hev f props ret hmem
            exact ⟨sub1, List.mem_cons_of_mem _ hs, hf, hp⟩

/-- C5: the properties object that connectToState passes to the component function, and
every properties object that setState passes on re-render, is fixedProps overridden by the
properties of mapStateToProps(state): a name present in the mapped object reads the mapped
value, any other name reads what fixedProps has for it (objects have no duplicate names). -/
theorem render_props_fixed_then_mapped (r : Run) (componentFn : Component)
    (mapStateToProps : Option (Value → Value)) (fnProps : Option Props)
    (newStateOrFunc : StateArg) (skipRender : Option Bool)
    (hfixed : ((fnProps.getD []).map Prod.fst).Nodup)
    (hsubs : ∀ sub, sub ∈ r.vars.subs → (sub.fnProps.map Prod.fst).Nodup)
    (hmapped : ∀ v, ((r.ownEntries v).map Prod.fst).Nodup) :
    (∃ props ret, (connectToState r componentFn mapStateToProps fnProps).state.trace =
        r.trace ++ [.render componentFn props ret] ∧
      OverriddenBy props (fnProps.getD [])
        (r.ownEntries ((mapStateToProps.getD fun s => s) r.vars.state))) ∧
    (∃ evs, (setState r newStateOrFunc skipRender).state.trace = r.trace ++ evs ∧
      ∀ f props ret, Event.render f props ret ∈ evs →
        ∃ sub, sub ∈ r.vars.subs ∧ f = sub.componentFn ∧
          OverriddenBy props sub.fnProps
            (r.ownEntries (sub.mapStateToProps (newStateOrFunc.next r.vars.state)))) := by
  constructor
  · have hlaw : OverriddenBy (renderProps r.ownEntries (mapStateToProps.getD fun s => s)
        (fnProps.getD []) r.vars.state) (fnProps.getD [])
        (r.ownEntries ((mapStateToProps.getD fun s => s) r.vars.state)) :=
      fun name => lookup_spread _ _ (hmapped _) hfixed name
    cases h : componentFn (renderProps r.ownEntries (mapStateToProps.getD fun s => s)
        (fnProps.getD []) r.vars.state) r.world with
    | threw w e => exact ⟨_, none, by simp [connectToState, h, Res.state], hlaw⟩
    | ok w el => exact ⟨_, some el, by simp [connectToState, h, Res.state], hlaw⟩
  · by_cases hne : (newStateOrFunc.next r.vars.state).strictNe r.vars.state = true
    · by_cases hskip : skipRender.getD false = true
      · exact ⟨[], by simp [setState, hne, hskip, Res.state], by simp⟩
      · obtain ⟨evs, htr, hev⟩ := rerender_render_events r.ownEntries
          (newStateOrFunc.next r.vars.state) r.vars.subs r.world r.trace
        refine ⟨evs, ?_, ?_⟩
        · rw [← htr]
          simp only [setState, hne, hskip, if_true]
          cases rerender r.ownEntries (newStateOrFunc.next r.vars.state) r.world r.trace
            r.vars.subs <;> rfl
        · intro f props ret hmem
          obtain ⟨sub, hs, hf, hp⟩ := hev f props ret hmem
          exact ⟨sub, hs, hf,
            fun name => hp ▸ lookup_spread _ _ (hmapped _) (hsubs sub hs) name⟩
    · exact ⟨[], by simp [setState, hne, Res.state], by simp⟩

theorem render_props_fixed_then_mapped_witness :
    spread [("name", .str "x")] [("name", .str "y")] = [("name", .str "y")] ∧
    spread [("name", .str "x"), ("b", .num 1)] [("2", .nan), ("value", .num 3)] =
      [("2", .nan), ("name", .str "x"), ("b", .num 1), ("value", .num 3)] ∧
    ∃ props ret, (connectToState Run.mounted Component.input (some valueMapper)
        (some [("value", .str "x"), ("name", .str "n")])).state.trace =
        Run.mounted.trace ++ [.render Component.input props ret] ∧
      OverriddenBy props [("value", .str "x"), ("name", .str "n")] [("value", .num 2)] :=
  ⟨by decide, by decide,
    (render_props_fixed_then_mapped Run.mounted Component.input (some valueMapper)
      (some [("value", .str "x"), ("name", .str "n")]) (.func fun v => v) none
      (by decide) (by decide)
      (by
        have h : Run.mounted.ownEntries = Run.start.ownEntries := rfl
        rw [h]
        intro v
        cases v <;> simp [Run.start])).1⟩

/-! ## Sequences of calls -/

theorem reach_of_steps (allowed : Session → Step → Prop) (h : ∀ s st, allowed s st)
    (sts : List Step) : ∀ s s1, s.steps sts = some s1 → Reach allowed s s1 := by
  induction sts using List.reverseRecOn with
  | nil =>
    intro s s1 hs
    simp only [Session.steps, Option.some.injEq] at hs
    exact hs ▸ Reach.start s
  | append_singleton sts st ih =>
    intro s s1 hs
    have key : ∀ (l : List Step) (a : Session), a.steps (l ++ [st]) =
        (a.steps l).bind fun b => b.step st := by
      intro l
      induction l with
      | nil =>
        intro a
        simp only [List.nil_append, Session.steps, Option.some_bind]
        cases a.step st <;> rfl
      | cons x l ihl =>
        intro a
        simp only [List.cons_append, Session.steps]
        cases a.step x with
        | none => rfl
        | some b => exact ihl b
    rw [key] at hs
    cases hmid : s.steps sts with
    | none => simp [hmid] at hs
    | some mid =>
      rw [hmid] at hs
      exact Reach.next s mid s1 st (ih s mid hmid) (h _ _) hs

/-- C10 (as stated, refuted): with a random source that repeats, two subscriptions get the
same key; after each has been connected and mounted, the registry record under the first
subscription's key holds the second subscription's element, not the element most recently
rendered for the first. -/
theorem subscription_key_collision :
    ¬ (∀ s0 s : Session, s0.Initial → Reach (fun _ _ => True) s0 s → s.Live) := by
  intro h
  have h1 := h Session.stuckRandom
    ((Session.stuckRandom.steps twoMounts).getD Session.stuckRandom) ⟨rfl, rfl⟩
    (reach_of_steps _ (fun _ _ => trivial) twoMounts _ _ rfl)
  unfold Session.Live at h1
  revert h1
  decide

/-! ## Frame lemmas for the subscription-key invariant -/

theorem tracks_live (w : World) (sub : Sub) (g : Mount) (h : Tracks w sub g) :
    liveEntry w sub g = true := by
  unfold liveEntry
  split_ifs with hm
  · obtain ⟨reg, node, hreg, hnode, hcur⟩ := h.2.2 hm
    simp [hreg, FlexDOM.get, hnode, hcur, h.2.1]
  · rfl

theorem tracks_frame (w w1 : World) (sub : Sub) (g : Mount)
    (hnext : w.dom.next ≤ w1.dom.next)
    (hkey : w1.dom.keyOf g.latest = w.dom.keyOf g.latest)
    (hreg : ∀ reg node, w.flexDOM = some reg →
      reg.nodes sub.dataKey.toPropertyKey = some node →
      ∃ reg1, w1.flexDOM = some reg1 ∧ reg1.nodes sub.dataKey.toPropertyKey = some node)
    (h : Tracks w sub g) : Tracks w1 sub g := by
  refine ⟨lt_of_lt_of_le h.1 hnext, hkey.trans h.2.1, fun hm => ?_⟩
  obtain ⟨reg, node, hr, hn, hc⟩ := h.2.2 hm
  obtain ⟨reg1, hr1, hn1⟩ := hreg reg node hr hn
  exact ⟨reg1, node, hr1, hn1, hc⟩

theorem tracks_of_fresh (w w1 : World) (el : ElemId) (sub : Sub) (g : Mount)
    (hf : Fresh w w1 el) (h : Tracks w sub g) : Tracks w1 sub g := by
  obtain ⟨hle, hlt, hold, hregs⟩ := hf
  refine tracks_frame w w1 sub g (le_of_lt (lt_of_le_of_lt hle hlt)) (hold _ h.1).1 ?_ h
  intro reg node hr hn
  obtain ⟨reg1, hr1, hsame⟩ := hregs reg hr
  exact ⟨reg1, hr1, by rw [hsame _ (by simp [hn]), hn]⟩

theorem detach_next (d : Dom) (x : ElemId) : (d.detach x).next = d.next := by
  unfold Dom.detach
  split <;> rfl

theorem appendChild_next (d d1 : Dom) (p c : ElemId) (h : d.appendChild p c = .ok d1 ()) :
    d1.next = d.next := by
  unfold Dom.appendChild at h
  split_ifs at h
  injection h with h1
  subst h1
  simp [Dom.update, detach_next]

theorem replaceChild_next (d d1 : Dom) (p n e : ElemId) (h : d.replaceChild p n e = .ok d1 ()) :
    d1.next = d.next := by
  unfold Dom.replaceChild at h
  split_ifs at h
  · injection h with h1
    subst h1
    rfl
  · injection h with h1
    subst h1
    simp [Dom.update, detach_next]

theorem world_add_ok (w w1 : World) (p c : ElemId) (h : w.add (some p) (some c) = .ok w1 ()) :
    ∃ reg, w.flexDOM = some reg ∧
      w1.flexDOM = some (reg.setNode (w.dom.keyName c) { parent := p, current := c }) ∧
      w1.dom.next = w.dom.next ∧ ∀ x, w1.dom.keyOf x = w.dom.keyOf x := by
  unfold World.add at h
  split at h
  · exact Res.noConfusion h
  · rename_i reg hreg
    split at h
    · rename_i s u hadd
      cases u
      injection h with h1
      subst h1
      obtain ⟨hp, hr⟩ := add_ok_inv _ s p c hadd
      refine ⟨reg, hreg, by simp [hr], ?_, fun x => congrFun (hp x) "key"⟩
      simp only [FlexDOM.add] at hadd
      split at hadd
      · exact Res.noConfusion hadd
      · rename_i d u hd
        cases u
        injection hadd with h2
        subst h2
        exact appendChild_next _ _ p c hd
    · exact Res.noConfusion h

theorem replaceChild_threw_kind (d d1 : Dom) (p n e : ElemId) (err : JsError)
    (h : d.replaceChild p n e = .threw d1 err) : err ≠ .typeError := by
  unfold Dom.replaceChild at h
  split_ifs at h <;> injection h with _ h2 <;> subst h2 <;> simp

theorem world_replace_ok (w w1 : World) (key : Value) (n : ElemId)
    (h : w.replace key n = .ok w1 ()) :
    ∃ reg node, w.flexDOM = some reg ∧ reg.nodes key.toPropertyKey = some node ∧
      w1.flexDOM = some (reg.setNode key.toPropertyKey { node with current := n }) ∧
      w1.dom.next = w.dom.next ∧ w1.dom.keyOf n = key ∧
      ∀ x, x ≠ n → w1.dom.keyOf x = w.dom.keyOf x := by
  unfold World.replace at h
  split at h
  · exact Res.noConfusion h
  · rename_i reg hreg
    split at h
    · rename_i s u hrep
      cases u
      injection h with h1
      subst h1
      simp only [FlexDOM.replace, FlexDOM.get] at hrep
      split at hrep
      · exact Res.noConfusion hrep
      · rename_i node hnode
        split at hrep
        · exact Res.noConfusion hrep
        · rename_i d u hd
          cases u
          injection hrep with h2
          subst h2
          have hp := replaceChild_props _ _ _ _ _ hd
          refine ⟨reg, node, hreg, hnode, rfl, ?_, ?_, ?_⟩
          · simpa [Dom.setProp, Dom.update] using replaceChild_next _ _ _ _ _ hd
          · simp [Dom.keyOf, hp, Dom.setProp, Dom.update]
          · intro x hx
            simp [Dom.keyOf, hp, Dom.setProp, Dom.update, hx]
    · exact Res.noConfusion h

theorem world_replace_threw (w w1 : World) (key : Value) (n : ElemId) (err : JsError)
    (h : w.replace key n = .threw w1 err)
    (hreg : ∃ reg node, w.flexDOM = some reg ∧ reg.nodes key.toPropertyKey = some node) :
    err ≠ .typeError := by
  obtain ⟨reg, node, hr, hn⟩ := hreg
  simp only [World.replace, hr, FlexDOM.replace, FlexDOM.get, hn] at h
  split at h
  · exact Res.noConfusion h
  · rename_i s e1 hrc
    injection h with _ h2
    subst h2
    split at hrc
    · rename_i d e2 hd
      injection hrc with _ h3
      subst h3
      exact replaceChild_threw_kind _ _ _ _ _ _ hd
    · exact Res.noConfusion hrc

theorem key_not_in_others (A B : List (Sub × Mount)) (sub : Sub) (g : Mount)
    (h : ((A ++ (sub, g) :: B).map fun e => e.1.dataKey.toPropertyKey).Nodup)
    (e : Sub × Mount) (he : e ∈ A ∨ e ∈ B) :
    e.1.dataKey.toPropertyKey ≠ sub.dataKey.toPropertyKey := by
  rw [List.map_append, List.map_cons, List.nodup_middle, List.nodup_cons] at h
  intro heq
  apply h.1
  rw [← heq, ← List.map_append]
  exact List.mem_map_of_mem _ (List.mem_append.mpr he)

theorem allTracked_replace_middle (w w1 w2 : World) (A B : List (Sub × Mount)) (sub : Sub)
    (g : Mount) (el : ElemId) (hinv : AllTracked w (A ++ (sub, g) :: B))
    (hf : Fresh w w1 el) (hrep : w1.replace sub.dataKey el = .ok w2 ()) :
    AllTracked w2 (A ++ (sub, { g with latest := el }) :: B) := by
  obtain ⟨hall, hnodup⟩ := hinv
  obtain ⟨reg1, node, hr1, hn1, hr2, hnext, hkeyn, hkeyo⟩ := world_replace_ok _ _ _ _ hrep
  have hother : ∀ e, e ∈ A ∨ e ∈ B → Tracks w2 e.1 e.2 := by
    intro e he
    have h0 : Tracks w e.1 e.2 := hall e (by
      rcases he with he | he
      · exact List.mem_append_left _ he
      · exact List.mem_append_right _ (List.mem_cons_of_mem _ he))
    have hne := key_not_in_others A B sub g hnodup e he
    refine tracks_frame w1 w2 e.1 e.2 (le_of_eq hnext.symm) ?_ ?_
      (tracks_of_fresh w w1 el _ _ hf h0)
    · exact hkeyo _ (ne_of_lt (lt_of_lt_of_le h0.1 hf.1))
    · intro reg nd hreg hnd
      rw [hr1] at hreg
      injection hreg with hreg
      subst hreg
      exact ⟨_, hr2, by simpa [FlexDOM.setNode, hne] using hnd⟩
  constructor
  · intro e he
    rcases List.mem_append.mp he with he | he
    · exact hother e (Or.inl he)
    · rcases List.mem_cons.mp he with he | he
      · subst he
        refine ⟨by rw [hnext]; exact hf.2.1, hkeyn, fun _ => ?_⟩
        exact ⟨_, { node with current := el }, hr2, by simp [FlexDOM.setNode], rfl⟩
      · exact hother e (Or.inr he)
  · simpa [List.map_append] using hnodup

theorem allTracked_mount_middle (w w1 : World) (A B : List (Sub × Mount)) (sub : Sub)
    (g : Mount) (p : ElemId) (hinv : AllTracked w (A ++ (sub, g) :: B))
    (hadd : w.add (some p) (some g.latest) = .ok w1 ()) :
    AllTracked w1 (A ++ (sub, { g with mounted := true }) :: B) := by
  obtain ⟨hall, hnodup⟩ := hinv
  obtain ⟨reg, hr, hr1, hnext, hkey⟩ := world_add_ok _ _ _ _ hadd
  have hself : Tracks w sub g := hall (sub, g) (List.mem_append_right _ (List.mem_cons_self _ _))
  have hname : w.dom.keyName g.latest = sub.dataKey.toPropertyKey := by
    simp [Dom.keyName, hself.2.1]
  have hother : ∀ e, e ∈ A ∨ e ∈ B → Tracks w1 e.1 e.2 := by
    intro e he
    have h0 : Tracks w e.1 e.2 := hall e (by
      rcases he with he | he
      · exact List.mem_append_left _ he
      · exact List.mem_append_right _ (List.mem_cons_of_mem _ he))
    have hne := key_not_in_others A B sub g hnodup e he
    refine tracks_frame w w1 e.1 e.2 (le_of_eq hnext.symm) (hkey _) ?_ h0
    intro reg0 nd hreg hnd
    rw [hr] at hreg
    injection hreg with hreg
    subst hreg
    exact ⟨_, hr1, by simpa [FlexDOM.setNode, hname, hne] using hnd⟩
  constructor
  · intro e he
    rcases List.mem_append.mp he with he | he
    · exact hother e (Or.inl he)
    · rcases List.mem_cons.mp he with he | he
      · subst he
        refine ⟨by rw [hnext]; exact hself.1, (hkey _).trans hself.2.1, fun _ => ?_⟩
        exact ⟨_, { parent := p, current := g.latest }, hr1,
          by simp [FlexDOM.setNode, hname], rfl⟩
      · exact hother e (Or.inr he)
  · simpa [List.map_append] using hnodup

theorem allTracked_connect (w w1 : World) (entries : List (Sub × Mount)) (sub : Sub)
    (el : ElemId) (hinv : AllTracked w entries) (hf : Fresh w w1 el)
    (hkey : sub.dataKey = w1.dom.keyOf el) :
    AllTracked w1 (entries ++ [(sub, { latest := el, mounted := false })]) := by
  obtain ⟨hall, hnodup⟩ := hinv
  constructor
  · intro e he
    rcases List.mem_append.mp he with he | he
    · exact tracks_of_fresh w w1 el _ _ hf (hall e he)
    · rw [List.mem_singleton] at he
      subst he
      exact ⟨hf.2.1, hkey.symm, fun hm => Bool.noConfusion hm⟩
  · rw [List.map_append, List.nodup_append]
    refine ⟨hnodup, List.nodup_singleton _, ?_⟩
    intro k hk hk1
    simp only [List.map_cons, List.map_nil, List.mem_singleton] at hk1
    obtain ⟨e, he, hke⟩ := List.mem_map.mp hk
    have h0 := hall e he
    apply (hf.2.2.1 _ h0.1).2
    rw [Dom.keyName, Dom.keyName, h0.2.1, ← hkey, ← hk1, ← hke]

theorem rerender_keeps_tracked (ownEntries : Value → Props) (state : Value)
    (todo : List (Sub × Mount)) :
    ∀ (done : List (Sub × Mount)) (w : World) (tr : List Event),
      AllTracked w (done ++ todo) → (∀ e, e ∈ todo → e.2.mounted = true) →
      rerenderFresh ownEntries state w (todo.map Prod.fst) →
      match rerender ownEntries state w tr (todo.map Prod.fst) with
      | .ok (w1, tr1) _ =>
        ∃ els : List ElemId, els.length = todo.length ∧
          tr1 = tr ++ rerenderCalls ownEntries state (todo.map Prod.fst) els ∧
          AllTracked w1 (done ++
            List.zipWith (fun e el => (e.1, { e.2 with latest := el })) todo els)
      | .threw _ err => err ≠ .typeError := by
  induction todo with
  | nil =>
    intro done w tr hinv _ _
    exact ⟨[], rfl, by simp [rerenderCalls], by simpa using hinv⟩
  | cons e rest ih =>
    intro done w tr hinv hmount hfresh
    obtain ⟨sub, g⟩ := e
    simp only [List.map_cons, rerenderFresh] at hfresh
    obtain ⟨w1, el, hcomp, hf, hcont⟩ := hfresh
    have hm : g.mounted = true := hmount (sub, g) (List.mem_cons_self _ _)
    have hself : Tracks w sub g :=
      hinv.1 (sub, g) (List.mem_append_right _ (List.mem_cons_self _ _))
    obtain ⟨reg, node, hreg, hnode, -⟩ := hself.2.2 hm
    simp only [List.map_cons, rerender, hreg, hcomp]
    cases hrep : w1.replace sub.dataKey el with
    | threw w2 err =>
      simp only
      obtain ⟨reg1, node1, hr1, hn1, -⟩ := (tracks_of_fresh w w1 el sub g hf hself).2.2 hm
      exact world_replace_threw _ _ _ _ _ hrep ⟨reg1, node1, hr1, hn1⟩
    | ok w2 u =>
      cases u
      simp only
      have hinv2 := allTracked_replace_middle w w1 w2 done rest sub g el hinv hf hrep
      have hrec := ih (done ++ [(sub, { g with latest := el })]) w2
        (tr ++ [.render sub.componentFn
          (renderProps ownEntries sub.mapStateToProps sub.fnProps state) (some el),
          .replace sub.dataKey el])
        (by simpa [List.append_assoc] using hinv2)
        (fun e he => hmount e (List.mem_cons_of_mem _ he)) (hcont w2 hrep)
      revert hrec
      cases rerender ownEntries state w2 (tr ++ [.render sub.componentFn
          (renderProps ownEntries sub.mapStateToProps sub.fnProps state) (some el),
          .replace sub.dataKey el]) (rest.map Prod.fst) with
      | threw s err => exact fun h => h
      | ok s u =>
        obtain ⟨w3, tr3⟩ := s
        rintro ⟨els, hlen, htr, hinv3⟩
        refine ⟨el :: els, by simp [hlen], by simp [htr, rerenderCalls], ?_⟩
        simpa [List.append_assoc] using hinv3

theorem split_at_get {α : Type} (l : List α) :
    ∀ (i : Nat) (a : α), l.get? i = some a →
      ∃ pre post, l = pre ++ a :: post ∧ pre.length = i ∧
        ∀ b, l.set i b = pre ++ b :: post := by
  induction l with
  | nil => intro i a h; simp at h
  | cons x xs ih =>
    intro i a h
    cases i with
    | zero =>
      simp only [List.get?_cons_zero, Option.some.injEq] at h
      exact ⟨[], xs, by simp [h], rfl, fun b => by simp⟩
    | succ j =>
      simp only [List.get?_cons_succ] at h
      obtain ⟨pre, post, hl, hlen, hset⟩ := ih j a h
      exact ⟨x :: pre, post, by simp [hl], by simp [hlen], fun b => by simp [hset]⟩

theorem inv_live (s : Session) (h : s.Inv) : s.Live :=
  ⟨h.1, fun e he => tracks_live _ _ _ (h.2.1 e he)⟩

theorem inv_connect (s s1 : Session) (componentFn : Component)
    (mapStateToProps : Option (Value → Value)) (fnProps : Option Props) (h : s.Inv)
    (hfresh : s.freshStep (.connect componentFn mapStateToProps fnProps))
    (hstep : s.step (.connect componentFn mapStateToProps fnProps) = some s1) : s1.Inv := by
  obtain ⟨w1, el, hcomp, hf⟩ := hfresh
  simp only [Session.step, connectToState, hcomp, Option.some.injEq] at hstep
  subst hstep
  refine ⟨by simp [h.1], ?_⟩
  simp only
  rw [List.zip_append h.1.symm]
  exact allTracked_connect _ _ _ _ _ h.2 hf rfl

theorem inv_mount (s s1 : Session) (index : Nat) (parent : ElemId) (h : s.Inv)
    (hstep : s.step (.mount index parent) = some s1) : s1.Inv := by
  simp only [Session.step] at hstep
  split at hstep
  · exact Option.noConfusion hstep
  · rename_i g hg
    split at hstep
    · rename_i w1 u hadd
      cases u
      injection hstep with hstep
      subst hstep
      obtain ⟨pre, post, hl, hlen, hset⟩ := split_at_get s.ghost index g hg
      have hlt : index < s.run.vars.subs.length := by
        rw [← h.1, hl]
        simp [hlen]
      obtain ⟨spre, spost, hsl, hslen, -⟩ := split_at_get s.run.vars.subs index
        (s.run.vars.subs.get ⟨index, hlt⟩) (List.get?_eq_get hlt)
      have hzip : s.run.vars.subs.zip s.ghost =
          spre.zip pre ++ (s.run.vars.subs.get ⟨index, hlt⟩, g) :: spost.zip post := by
        rw [hl]
        conv_lhs => rw [hsl]
        rw [List.zip_append (by rw [hslen, hlen])]
        rfl
      have hinv := h.2
      rw [hzip] at hinv
      refine ⟨by simp [h.1], ?_⟩
      simp only [hset]
      conv => arg 2; rw [hsl]
      rw [List.zip_append (by rw [hslen, hlen])]
      exact allTracked_mount_middle _ _ _ _ _ g parent hinv hadd
    · exact Option.noConfusion hstep

theorem replacedBy_rerenderCalls (ownEntries : Value → Props) (state : Value) (subs : List Sub) :
    ∀ els : List ElemId, els.length = subs.length →
      replacedBy (rerenderCalls ownEntries state subs els) = els := by
  induction subs with
  | nil => intro els h; cases els <;> simp_all [rerenderCalls, replacedBy]
  | cons sub rest ih =>
    intro els h
    cases els with
    | nil => simp at h
    | cons el els => simp [rerenderCalls, replacedBy, ih els (by simpa using h)]

theorem zip_zipWith_latest (subs : List Sub) :
    ∀ (ghost : List Mount) (els : List ElemId),
      subs.zip (List.zipWith (fun g el => { g with latest := el }) ghost els) =
        List.zipWith (fun e el => (e.1, { e.2 with latest := el })) (subs.zip ghost) els := by
  induction subs with
  | nil => intro ghost els; simp
  | cons sub rest ih =>
    intro ghost els
    cases ghost with
    | nil => simp
    | cons g ghost =>
      cases els with
      | nil => simp
      | cons el els => simp [ih ghost els]

theorem ghost_unchanged (ghost : List Mount) :
    (if (replacedBy ([] : List Event)).length = ghost.length
      then List.zipWith (fun g el => { g with latest := el }) ghost (replacedBy [])
      else ghost) = ghost := by
  cases ghost <;> simp [replacedBy]

theorem mounted_of_all (subs : List Sub) (ghost : List Mount)
    (h : ghost.all (fun g => g.mounted) = true) :
    ∀ e, e ∈ subs.zip ghost → e.2.mounted = true := by
  intro e he
  obtain ⟨sub, g⟩ := e
  exact List.all_eq_true.mp h g (List.of_mem_zip he).2

theorem rerender_session (s : Session) (state : Value) (h : s.Inv)
    (hall : s.ghost.all (fun g => g.mounted) = true)
    (hfresh : rerenderFresh s.run.ownEntries state s.run.world s.run.vars.subs) :
    match rerender s.run.ownEntries state s.run.world s.run.trace s.run.vars.subs with
    | .ok (w1, tr1) _ =>
      ∃ els : List ElemId, els.length = s.ghost.length ∧
        tr1 = s.run.trace ++ rerenderCalls s.run.ownEntries state s.run.vars.subs els ∧
        AllTracked w1 (s.run.vars.subs.zip
          (List.zipWith (fun g el => { g with latest := el }) s.ghost els))
    | .threw _ err => err ≠ .typeError := by
  have hmap : (s.run.vars.subs.zip s.ghost).map Prod.fst = s.run.vars.subs :=
    List.map_fst_zip _ _ (le_of_eq h.1.symm)
  have hloop := rerender_keeps_tracked s.run.ownEntries state (s.run.vars.subs.zip s.ghost) []
    s.run.world s.run.trace (by simpa using h.2) (mounted_of_all _ _ hall)
    (by rw [hmap]; exact hfresh)
  rw [hmap] at hloop
  revert hloop
  cases rerender s.run.ownEntries state s.run.world s.run.trace s.run.vars.subs with
  | threw st err => exact fun hl => hl
  | ok st u =>
    obtain ⟨w1, tr1⟩ := st
    rintro ⟨els, hlen, htr, hinv⟩
    refine ⟨els, ?_, htr, ?_⟩
    · rw [hlen, List.length_zip, h.1, Nat.min_self]
    · rw [zip_zipWith_latest]
      simpa using hinv

theorem inv_set (s s1 : Session) (newStateOrFunc : StateArg) (skipRender : Option Bool)
    (h : s.Inv) (hfresh : s.freshStep (.set newStateOrFunc skipRender))
    (hstep : s.step (.set newStateOrFunc skipRender) = some s1) : s1.Inv := by
  simp only [Session.step] at hstep
  split_ifs at hstep with hall
  by_cases hre : (newStateOrFunc.next s.run.vars.state).strictNe s.run.vars.state = true ∧
      skipRender.getD false = false
  · have hloop := rerender_session s _ h hall hfresh
    simp only [setState, hre.1, hre.2, if_true, Bool.not_false] at hstep
    revert hloop hstep
    cases rerender s.run.ownEntries (newStateOrFunc.next s.run.vars.state) s.run.world
      s.run.trace s.run.vars.subs with
    | threw st err =>
      intro _ hstep
      exact Option.noConfusion hstep
    | ok st u =>
      obtain ⟨w1, tr1⟩ := st
      rintro ⟨els, hlen, htr, hinv⟩ hstep
      simp only [Option.some.injEq] at hstep
      subst hstep
      have hels : replacedBy (List.drop s.run.trace.length tr1) = els := by
        rw [htr, List.drop_left]
        exact replacedBy_rerenderCalls _ _ _ els (hlen.trans h.1)
      simp only [hels, hlen, if_true]
      exact ⟨by simp [hlen, h.1], hinv⟩
  · have hsame : ∃ v, setState s.run newStateOrFunc skipRender =
        .ok { s.run with vars := { s.run.vars with state := v } } () := by
      by_cases hne : (newStateOrFunc.next s.run.vars.state).strictNe s.run.vars.state = true
      · have hskip : skipRender.getD false = true := by
          cases hs : skipRender.getD false
          · exact absurd ⟨hne, hs⟩ hre
          · rfl
        exact ⟨newStateOrFunc.next s.run.vars.state, by simp [setState, hne, hskip]⟩
      · exact ⟨s.run.vars.state, by simp [setState, hne]⟩
    obtain ⟨v, hv⟩ := hsame
    rw [hv] at hstep
    simp only [List.drop_length, Option.some.injEq] at hstep
    rw [ghost_unchanged] at hstep
    subst hstep
    exact h

theorem inv_of_reach (s0 s : Session) (h0 : s0.Initial)
    (hreach : Reach (fun t st => t.freshStep st) s0 s) : s.Inv := by
  induction hreach with
  | start =>
    obtain ⟨hs, hg⟩ := h0
    refine ⟨by rw [hs, hg]; rfl, ?_⟩
    rw [hs, hg]
    exact ⟨fun e he => by simp at he, by simp⟩
  | next s1 s2 st _ hfresh hstep ih =>
    cases st with
    | connect f m fx => exact inv_connect _ _ f m fx ih hfresh hstep
    | mount i p => exact inv_mount _ _ i p ih hstep
    | set arg skip => exact inv_set _ _ arg skip ih hfresh hstep

/-- C10 (amended): start from a container without subscriptions and make any sequence of
connectToState, mount (add of a subscription's element under some parent) and setState calls
that go through, setState being called only when every subscription is mounted, and suppose
keys stay unique: every component call returns a newly created element whose key is the key
of no existing element, leaving the keys of existing elements and the existing registry
records as they were.  Then after every step each mounted subscription's recorded key has a
registry record whose current element is the one most recently rendered for it and carries
that key; and a setState call made then never fails on a missing registry record (it does not
throw a TypeError). -/
theorem subscription_keys_stay_live (s0 s : Session) (h0 : s0.Initial)
    (hreach : Reach (fun t st => t.freshStep st) s0 s) :
    s.Live ∧
    ∀ (newStateOrFunc : StateArg) (skipRender : Option Bool),
      s.ghost.all (fun g => g.mounted) = true →
      s.freshStep (.set newStateOrFunc skipRender) →
      ∀ r1, setState s.run newStateOrFunc skipRender ≠ .threw r1 .typeError := by
  have hinv := inv_of_reach s0 s h0 hreach
  refine ⟨inv_live s hinv, ?_⟩
  intro arg skip hall hfresh r1 hthrew
  have hloop := rerender_session s (arg.next s.run.vars.state) hinv hall hfresh
  unfold setState at hthrew
  simp only at hthrew
  split_ifs at hthrew
  revert hloop hthrew
  cases rerender s.run.ownEntries (arg.next s.run.vars.state) s.run.world s.run.trace
    s.run.vars.subs with
  | ok st u =>
    intro _ hthrew
    exact Res.noConfusion hthrew
  | threw st err =>
    intro hne hthrew
    simp only at hthrew
    injection hthrew with _ herr
    exact hne herr

theorem subscription_keys_stay_live_witness :
    Session.fresh.Initial ∧
    Session.afterSet.ghost = [{ latest := 2, mounted := true }] ∧
    Reach (fun t st => t.freshStep st) Session.fresh Session.afterSet ∧
    Session.afterSet.Live :=
  have hconnect : Session.fresh.freshStep (.connect Component.input (some valueMapper) none) :=
    ⟨_, 1, rfl, by decide, by decide, by decide,
      fun reg hreg => ⟨reg, hreg, fun _ _ => rfl⟩⟩
  have hset : Session.afterMount.freshStep (.set (.value (.num 5) rfl) none) :=
    ⟨_, 2, rfl,
      ⟨by decide, by decide, by decide, fun reg hreg => ⟨reg, hreg, fun _ _ => rfl⟩⟩,
      fun _ _ => trivial⟩
  have hreach : Reach (fun t st => t.freshStep st) Session.fresh Session.afterSet :=
    Reach.next _ Session.afterMount _ (.set (.value (.num 5) rfl) none)
      (Reach.next _ Session.afterConnect _ (.mount 0 0)
        (Reach.next _ Session.fresh _ (.connect Component.input (some valueMapper) none)
          (Reach.start _) hconnect rfl)
        trivial rfl)
      hset rfl
  ⟨⟨rfl, rfl⟩, by decide, hreach,
    (subscription_keys_stay_live Session.fresh Session.afterSet ⟨rfl, rfl⟩ hreach).1⟩

/-! ## Replacement of every subscriber's element -/

theorem detach_parentNode_ne (d : Dom) (x y : ElemId) (h : x ≠ y) :
    ((d.detach y).elems x).parentNode = (d.elems x).parentNode := by
  unfold Dom.detach
  split
  · rfl
  · simp only [Dom.update, h, if_false]
    split_ifs <;> rfl

theorem replaceChild_parents (d d1 : Dom) (p n e : ElemId)
    (h : d.replaceChild p n e = .ok d1 ()) :
    (d.elems e).parentNode = some p ∧ (d1.elems n).parentNode = some p ∧
    (n ≠ e → (d1.elems e).parentNode = none) ∧
    ∀ x, x ≠ n → x ≠ e → (d1.elems x).parentNode = (d.elems x).parentNode := by
  unfold Dom.replaceChild at h
  split_ifs at h with h1 h2 h3
  · have hpar : (d.elems e).parentNode = some p := by simpa using h2
    injection h with h4
    subst h4
    subst h3
    exact ⟨hpar, hpar, fun hne => absurd rfl hne, fun _ _ _ => rfl⟩
  · have hpar : (d.elems e).parentNode = some p := by simpa using h2
    injection h with h4
    subst h4
    refine ⟨hpar, by simp [Dom.update], fun hne => ?_, fun x hx1 hx2 => ?_⟩
    · have hne1 : ¬ e = n := fun hh => hne hh.symm
      simp [Dom.update, hne1]
    · simp only [Dom.update, hx1, hx2, if_false]
      split_ifs
      · exact detach_parentNode_ne d x n hx1
      · exact detach_parentNode_ne d x n hx1

theorem world_replace_parents (w w1 : World) (key : Value) (n : ElemId)
    (h : w.replace key n = .ok w1 ()) :
    ∃ reg node, w.flexDOM = some reg ∧ reg.nodes key.toPropertyKey = some node ∧
      (w.dom.elems node.current).parentNode = some node.parent ∧
      (w1.dom.elems n).parentNode = some node.parent ∧
      (n ≠ node.current → (w1.dom.elems node.current).parentNode = none) ∧
      ∀ x, x ≠ n → x ≠ node.current →
        (w1.dom.elems x).parentNode = (w.dom.elems x).parentNode := by
  unfold World.replace at h
  split at h
  · exact Res.noConfusion h
  · rename_i reg hreg
    split at h
    · rename_i s u hrep
      cases u
      injection h with h1
      subst h1
      simp only [FlexDOM.replace, FlexDOM.get] at hrep
      split at hrep
      · exact Res.noConfusion hrep
      · rename_i node hnode
        split at hrep
        · exact Res.noConfusion hrep
        · rename_i d u hd
          cases u
          injection hrep with h2
          subst h2
          obtain ⟨hp1, hp2, hp3, hp4⟩ := replaceChild_parents _ _ _ _ _ hd
          rw [setProp_parentNode] at hp1
          refine ⟨reg, node, hreg, hnode, hp1, hp2, hp3, fun x hx1 hx2 => ?_⟩
          rw [hp4 x hx1 hx2, setProp_parentNode]
    · exact Res.noConfusion h

theorem swapped_of (w0 w1 : World) (sub : Sub) (old el : ElemId)
    (h : Swapped w0 w1 sub old el) : swapped w0 w1 sub old el = true := by
  obtain ⟨⟨reg, node, hreg, hnode, hcur⟩, hkey, hpar, hold, hnew⟩ := h
  cases hp : (w0.dom.elems old).parentNode with
  | none => exact absurd hp hold
  | some p => simp [swapped, hreg, FlexDOM.get, hnode, hcur, hkey, hpar, hp, hnew]

theorem latest_ne_of_tracked (w : World) (A B : List (Sub × Mount)) (sub : Sub) (g : Mount)
    (hinv : AllTracked w (A ++ (sub, g) :: B)) (e : Sub × Mount) (he : e ∈ A ∨ e ∈ B) :
    e.2.latest ≠ g.latest := by
  intro heq
  have h0 : Tracks w e.1 e.2 := hinv.1 e (by
    rcases he with he | he
    · exact List.mem_append_left _ he
    · exact List.mem_append_right _ (List.mem_cons_of_mem _ he))
  have h1 : Tracks w sub g :=
    hinv.1 (sub, g) (List.mem_append_right _ (List.mem_cons_self _ _))
  apply key_not_in_others A B sub g hinv.2 e he
  rw [← h0.2.1, ← h1.2.1, heq]

theorem rerender_swaps (ownEntries : Value → Props) (state : Value)
    (todo : List (Sub × Mount)) :
    ∀ (done : List (Sub × Mount)) (w : World) (tr : List Event),
      AllTracked w (done ++ todo) → (∀ e, e ∈ todo → e.2.mounted = true) →
      rerenderUntouched ownEntries state w (todo.map Prod.fst) →
      match rerender ownEntries state w tr (todo.map Prod.fst) with
      | .ok (w1, tr1) _ =>
        ∃ els : List ElemId, els.length = todo.length ∧
          tr1 = tr ++ rerenderCalls ownEntries state (todo.map Prod.fst) els ∧
          AllTracked w1 (done ++
            List.zipWith (fun e el => (e.1, { e.2 with latest := el })) todo els) ∧
          (∀ x, x < w.dom.next → (∀ e, e ∈ todo → e.2.latest ≠ x) →
            (w1.dom.elems x).parentNode = (w.dom.elems x).parentNode) ∧
          ∀ p, p ∈ todo.zip els → Swapped w w1 p.1.1 p.1.2.latest p.2
      | .threw _ _ => True := by
  induction todo with
  | nil =>
    intro done w tr hinv _ _
    exact ⟨[], rfl, by simp [rerenderCalls], by simpa using hinv, fun _ _ _ => rfl,
      fun p hp => by simp at hp⟩
  | cons e rest ih =>
    intro done w tr hinv hmount hfresh
    obtain ⟨sub, g⟩ := e
    simp only [List.map_cons, rerenderUntouched] at hfresh
    obtain ⟨w1, el, hcomp, ⟨hf, hpar⟩, hcont⟩ := hfresh
    have hm : g.mounted = true := hmount (sub, g) (List.mem_cons_self _ _)
    have hself : Tracks w sub g :=
      hinv.1 (sub, g) (List.mem_append_right _ (List.mem_cons_self _ _))
    obtain ⟨reg, node0, hreg, -, -⟩ := hself.2.2 hm
    simp only [List.map_cons, rerender, hreg, hcomp]
    cases hrep : w1.replace sub.dataKey el with
    | threw w2 err => trivial
    | ok w2 u =>
      cases u
      simp only
      have hinv2 := allTracked_replace_middle w w1 w2 done rest sub g el hinv hf hrep
      have hrec := ih (done ++ [(sub, { g with latest := el })]) w2
        (tr ++ [.render sub.componentFn
          (renderProps ownEntries sub.mapStateToProps sub.fnProps state) (some el),
          .replace sub.dataKey el])
        (by simpa [List.append_assoc] using hinv2)
        (fun e he => hmount e (List.mem_cons_of_mem _ he)) (hcont w2 hrep)
      revert hrec
      cases rerender ownEntries state w2 (tr ++ [.render sub.componentFn
          (renderProps ownEntries sub.mapStateToProps sub.fnProps state) (some el),
          .replace sub.dataKey el]) (rest.map Prod.fst) with
      | threw s err => exact fun _ => trivial
      | ok s u =>
        obtain ⟨w3, tr3⟩ := s
        rintro ⟨els, hlen, htr, hinv3, hA, hB⟩
        obtain ⟨reg1, node, hr1, hn1, hp1, hp2, hp3, hp4⟩ := world_replace_parents _ _ _ _ hrep
        obtain ⟨-, -, -, -, -, hnext2, -, -⟩ := world_replace_ok _ _ _ _ hrep
        have hcur : node.current = g.latest := by
          obtain ⟨reg2, node2, hr2, hn2, hc2⟩ := (tracks_of_fresh w w1 el sub g hf hself).2.2 hm
          rw [hr1] at hr2
          injection hr2 with hr2
          subst hr2
          rw [hn1] at hn2
          injection hn2 with hn2
          subst hn2
          exact hc2
        rw [hcur] at hp1 hp3 hp4
        have hne : el ≠ g.latest := Ne.symm (ne_of_lt (lt_of_lt_of_le hself.1 hf.1))
        have hold : ∀ e, e ∈ rest → e.2.latest < w.dom.next := fun e he =>
          (hinv.1 e (List.mem_append_right _ (List.mem_cons_of_mem _ he))).1
        have hframe : ∀ x, x < w.dom.next → x ≠ g.latest →
            (w2.dom.elems x).parentNode = (w.dom.elems x).parentNode := by
          intro x hx hxg
          rw [hp4 x (ne_of_lt (lt_of_lt_of_le hx hf.1)) hxg, hpar x hx]
        have hup : ∀ x, x < w.dom.next → x < w2.dom.next := fun x hx => by
          rw [hnext2]
          exact lt_trans (lt_of_lt_of_le hx hf.1) hf.2.1
        have hel2 : el < w2.dom.next := by rw [hnext2]; exact hf.2.1
        have hrestel : ∀ e, e ∈ rest → e.2.latest ≠ el := fun e he =>
          ne_of_lt (lt_of_lt_of_le (hold e he) hf.1)
        have hrestg : ∀ e, e ∈ rest → e.2.latest ≠ g.latest := fun e he =>
          latest_ne_of_tracked w done rest sub g hinv e (Or.inr he)
        refine ⟨el :: els, by simp [hlen], by simp [htr, rerenderCalls],
          by simpa [List.append_assoc] using hinv3, ?_, ?_⟩
        · intro x hx hall
          have hxg : x ≠ g.latest := (hall (sub, g) (List.mem_cons_self _ _)).symm
          rw [hA x (hup x hx) (fun e he => hall e (List.mem_cons_of_mem _ he)), hframe x hx hxg]
        · intro p hp
          rw [List.zip_cons_cons, List.mem_cons] at hp
          rcases hp with hp | hp
          · subst hp
            have htrk : Tracks w3 sub { g with latest := el } :=
              hinv3.1 (sub, { g with latest := el })
                (List.mem_append_left _ (List.mem_append_right _ (List.mem_singleton_self _)))
            refine ⟨htrk.2.2 hm, htrk.2.1, ?_, ?_, ?_⟩
            · show (w3.dom.elems el).parentNode = (w.dom.elems g.latest).parentNode
              rw [hA el hel2 hrestel, hp2, ← hpar _ hself.1, hp1]
            · show (w.dom.elems g.latest).parentNode ≠ none
              rw [← hpar _ hself.1, hp1]
              exact Option.some_ne_none _
            · show (w3.dom.elems g.latest).parentNode = none
              rw [hA g.latest (hup _ hself.1) hrestg, hp3 hne]
          · obtain ⟨h1, h2, h3, h4, h5⟩ := hB p hp
            have hmem : p.1 ∈ rest := (List.of_mem_zip (a := p.1) (b := p.2) hp).1
            have hfr := hframe p.1.2.latest (hold _ hmem) (hrestg _ hmem)
            exact ⟨h1, h2, by rw [h3, hfr], by rw [← hfr]; exact h4, h5⟩

/-- C6 (as stated, refuted): two subscriptions carry the same key, which has a registry record;
setState(3) returns after calling replace twice, but the first subscriber's element is never
replaced: it is still under the root, and the record holds the element rendered for the second
subscription. -/
theorem rerender_key_collision :
    ¬ (∀ (s0 s : Session) (newStateOrFunc : StateArg) (r1 : Run),
        s0.Initial → Reach (fun _ _ => True) s0 s →
        s.ghost.all (fun g => g.mounted) = true →
        s.run.vars.subs.all (fun sub => hasEntry s.run.world sub.dataKey) = true →
        (newStateOrFunc.next s.run.vars.state).strictNe s.run.vars.state = true →
        setState s.run newStateOrFunc (some false) = .ok r1 () →
        ((r1.trace.drop s.run.trace.length).filter Event.isReplace).length =
          s.run.vars.subs.length ∧
        s.replacedAll r1 = true) := by
  intro h
  have h1 := (h Session.stuckRandom Session.collided (.value (.num 3) rfl)
    (setState Session.collided.run (.value (.num 3) rfl) (some false)).state ⟨rfl, rfl⟩
    (reach_of_steps _ (fun _ _ => trivial) twoMounts _ _ rfl)
    (by decide) (by decide) (by decide) rfl).2
  revert h1
  decide

/-- C6 (amended): take a container whose subscriptions are all mounted, whose recorded keys
are pairwise distinct, and each of whose keys has a registry record with that subscriber's
element, carrying the key, as current element.  When setState is called with skipRender false
and a next value different from the current state, every component call returns a newly
created element with an unused key and leaves existing elements and records alone, and the
call returns, then the calls it made are, in subscription order, render_i on
{...fixedProps_i, ...mapper_i(newState)} followed by replace(key_i, the element render_i
returned); replace is called exactly n times; and afterwards every subscriber's element has
been replaced: the record under key_i has the new element as current, the new element carries
key_i and sits under the parent the old one had, and the old one has no parent. -/
theorem setState_replaces_every_subscriber (s : Session) (newStateOrFunc : StateArg)
    (r1 : Run) (hinv : s.Inv) (hall : s.ghost.all (fun g => g.mounted) = true)
    (hfresh : rerenderUntouched s.run.ownEntries (newStateOrFunc.next s.run.vars.state)
      s.run.world s.run.vars.subs)
    (hne : (newStateOrFunc.next s.run.vars.state).strictNe s.run.vars.state = true)
    (hret : setState s.run newStateOrFunc (some false) = .ok r1 ()) :
    ∃ els : List ElemId, els.length = s.run.vars.subs.length ∧
      r1.trace = s.run.trace ++
        rerenderCalls s.run.ownEntries (newStateOrFunc.next s.run.vars.state)
          s.run.vars.subs els ∧
      ((r1.trace.drop s.run.trace.length).filter Event.isReplace).length =
        s.run.vars.subs.length ∧
      (r1.trace.drop s.run.trace.length).filter Event.isReplace =
        (s.run.vars.subs.zip els).map (fun q => Event.replace q.1.dataKey q.2) ∧
      r1.vars.state = newStateOrFunc.next s.run.vars.state ∧
      r1.vars.subs = s.run.vars.subs ∧
      s.replacedAll r1 = true := by
  have hmap : (s.run.vars.subs.zip s.ghost).map Prod.fst = s.run.vars.subs :=
    List.map_fst_zip _ _ (le_of_eq hinv.1.symm)
  have hloop := rerender_swaps s.run.ownEntries (newStateOrFunc.next s.run.vars.state)
    (s.run.vars.subs.zip s.ghost) [] s.run.world s.run.trace (by simpa using hinv.2)
    (mounted_of_all _ _ hall) (by rw [hmap]; exact hfresh)
  rw [hmap] at hloop
  simp only [setState, hne, if_true, Option.getD_some, Bool.not_false] at hret
  revert hloop hret
  cases rerender s.run.ownEntries (newStateOrFunc.next s.run.vars.state) s.run.world
    s.run.trace s.run.vars.subs with
  | threw st err =>
    intro _ hret
    exact Res.noConfusion hret
  | ok st u =>
    obtain ⟨w1, tr1⟩ := st
    rintro ⟨els, hlen, htr, -, -, hB⟩ hret
    simp only at hret
    injection hret with hret
    subst hret
    have hlen1 : els.length = s.run.vars.subs.length := by
      rw [hlen, List.length_zip, hinv.1, Nat.min_self]
    have hc := rerenderCalls_count s.run.ownEntries (newStateOrFunc.next s.run.vars.state)
      _ els hlen1
    have hdrop : List.drop s.run.trace.length tr1 = rerenderCalls s.run.ownEntries
        (newStateOrFunc.next s.run.vars.state) s.run.vars.subs els := by
      rw [htr, List.drop_left]
    refine ⟨els, hlen1, htr, ?_, ?_, rfl, rfl, ?_⟩
    · simp only [hdrop]
      exact hc.1
    · simp only [hdrop]
      exact hc.2
    · simp only [Session.replacedAll, hdrop,
        replacedBy_rerenderCalls _ _ _ els hlen1, Bool.and_eq_true, beq_iff_eq,
        List.all_eq_true]
      exact ⟨hlen1.trans hinv.1.symm, fun e he => swapped_of _ _ _ _ _ (hB e he)⟩

theorem setState_replaces_every_subscriber_witness :
    (Session.afterSteps 4).Inv ∧
    (Session.afterSteps 4).ghost = [{ latest := 1, mounted := true },
      { latest := 2, mounted := true }] ∧
    (setState (Session.afterSteps 4).run (.value (.num 3) rfl) (some false)).isOk = true ∧
    ∃ els : List ElemId, els.length = (Session.afterSteps 4).run.vars.subs.length ∧
      (Session.afterSteps 4).replacedAll
        (setState (Session.afterSteps 4).run (.value (.num 3) rfl) (some false)).state = true := by
  have hc1 : (Session.afterSteps 0).freshStep (.connect Component.input none none) :=
    ⟨_, 1, rfl, by decide, by decide, by decide,
      fun reg hreg => ⟨reg, hreg, fun _ _ => rfl⟩⟩
  have hc2 : (Session.afterSteps 2).freshStep (.connect Component.input none none) :=
    ⟨_, 2, rfl, by decide, by decide, by decide,
      fun reg hreg => ⟨reg, hreg, fun _ _ => rfl⟩⟩
  have hreach : Reach (fun t st => t.freshStep st) Session.fresh (Session.afterSteps 4) :=
    Reach.next _ (Session.afterSteps 3) _ (.mount 1 0)
      (Reach.next _ (Session.afterSteps 2) _ (.connect Component.input none none)
        (Reach.next _ (Session.afterSteps 1) _ (.mount 0 0)
          (Reach.next _ (Session.afterSteps 0) _ (.connect Component.input none none)
            (Reach.start _) hc1 rfl)
          trivial rfl)
        hc2 rfl)
      trivial rfl
  have hinv : (Session.afterSteps 4).Inv := inv_of_reach _ _ ⟨rfl, rfl⟩ hreach
  have hfresh : rerenderUntouched (Session.afterSteps 4).run.ownEntries
      ((StateArg.value (.num 3) rfl).next (Session.afterSteps 4).run.vars.state)
      (Session.afterSteps 4).run.world (Session.afterSteps 4).run.vars.subs := by
    refine ⟨_, 3, rfl, ⟨⟨by decide, by decide, by decide,
      fun reg hreg => ⟨reg, hreg, fun _ _ => rfl⟩⟩, by decide⟩, ?_⟩
    intro w2 h2
    have hw : _ = w2 := congrArg Res.state h2
    subst hw
    exact ⟨_, 4, rfl, ⟨⟨by decide, by decide, by decide,
      fun reg hreg => ⟨reg, hreg, fun _ _ => rfl⟩⟩, by decide⟩, fun _ _ => trivial⟩
  obtain ⟨els, hlen, -, -, -, -, -, hall⟩ := setState_replaces_every_subscriber
    (Session.afterSteps 4) (.value (.num 3) rfl)
    (setState (Session.afterSteps 4).run (.value (.num 3) rfl) (some false)).state
    hinv (by decide) hfresh (by decide) rfl
  exact ⟨hinv, by decide, by decide, els, hlen, hall⟩

end FlexDom
